import Mathlib

/-!
Verification development for `tools/add-openclaw-metadata.py`.

The script is embedded shallowly: Python strings become `List Char`
(written `Str`), Python's string primitives (`startswith`, `index`,
`split`, `join`, `in`) become the executable Lean functions below, and
the per-file orchestrator `process_skill` becomes a pure function from a
file's content to a result record (return value plus the file content
after the call; printing is omitted as it carries no state).  File
writes are modelled by the `newContent` field: in dry-run mode or on the
skip/error paths the content is returned unchanged.
-/

/-- Python `str` modelled as a list of unicode code points. -/
abbrev Str := List Char

/-- Python `s.startswith(p)`. -/
def strStartsWith (s p : Str) : Bool :=
  p.isPrefixOf s

/-- Worker for `findSub`: first index `≥ i` at which `pat` occurs in the
scanned suffix (the suffix passed alongside its absolute start index). -/
def findSubAux (pat : Str) : Str → Nat → Option Nat
  | [], i => if pat = [] then some i else none
  | c :: rest, i =>
    if pat.isPrefixOf (c :: rest) then some i else findSubAux pat rest (i + 1)

/-- Python `s.index(pat, start)` / `s.find(pat, start)`: the least index
`j ≥ start` such that `pat` occurs in `s` at `j`, or `none`. -/
def findSub (s pat : Str) (start : Nat) : Option Nat :=
  findSubAux pat (s.drop start) start

/-- Python `pat in s` (substring containment). -/
def containsSub (pat s : Str) : Bool :=
  (findSub s pat 0).isSome

/-- Python `s.split("\n")`. -/
def splitNl : Str → List Str
  | [] => [[]]
  | c :: rest =>
    if c = '\n' then [] :: splitNl rest
    else
      match splitNl rest with
      | [] => [[c]]
      | l :: ls => (c :: l) :: ls

/-- Python `"\n".join(ls)`. -/
def joinNl : List Str → Str
  | [] => []
  | [l] => l
  | l :: ls => l ++ '\n' :: joinNl ls

/-- `EMOJI_MAP` from the script, as an association list in source
(dict-insertion) order: category path prefix ↦ emoji. -/
def EMOJI_MAP : List (Str × Str) :=
  [ ("personas/engineering".data, "🔧".data),
    ("personas/data".data, "📊".data),
    ("personas/devops".data, "⚙️".data),
    ("personas/claude-code".data, "🤖".data),
    ("personas/security".data, "🛡️".data),
    ("personas/web".data, "🌐".data),
    ("personas/api".data, "🧪".data),
    ("personas/domain/eve-esi".data, "🚀".data),
    ("personas/domain/hauling-business-advisor".data, "🚛".data),
    ("personas/domain/hauling-image-estimator".data, "🚛".data),
    ("personas/domain/hauling-job-scheduler".data, "🚛".data),
    ("personas/domain/hauling-lead-qualifier".data, "🚛".data),
    ("personas/domain/hauling-quote-generator".data, "🚛".data),
    ("personas/domain/gamedev".data, "🎮".data),
    ("personas/domain/tie-dye-business-coach".data, "🎨".data),
    ("personas/domain/apple-dev-best-practices".data, "📱".data),
    ("personas/domain/mentor-linux".data, "🐧".data),
    ("personas/domain/streamlit".data, "📊".data),
    ("personas/domain/strategic-planner".data, "📋".data),
    ("agents/system".data, "📁".data),
    ("agents/browser".data, "🔍".data),
    ("agents/email".data, "✉️".data),
    ("agents/integrations".data, "🔗".data),
    ("agents/orchestration".data, "🧩".data),
    ("agents/analysis".data, "🔬".data),
    ("workflows".data, "📋".data) ]

/-- `API_EMOJI_OVERRIDES` from the script: per-skill emoji overrides. -/
def API_EMOJI_OVERRIDES : List (Str × Str) :=
  [ ("api-tester".data, "🧪".data),
    ("database-ops".data, "🗄️".data),
    ("webhook-designer".data, "🪩".data),
    ("oauth-integrator".data, "🔐".data) ]

/-- Python `k in d` / `d[k]` on an insertion-ordered dict with the given
entries, returning the value when the key is present. -/
def assocLookup (k : Str) : List (Str × Str) → Option Str
  | [] => none
  | (k', v) :: rest => if k = k' then some v else assocLookup k rest

/-- Stable insertion for `sortLenDesc` (insert before the first entry of
strictly smaller or equal key length is wrong for stability, so insert
before the first entry whose key is not longer). -/
def insertLenDesc (x : Str × Str) : List (Str × Str) → List (Str × Str)
  | [] => [x]
  | y :: ys =>
    if x.1.length ≥ y.1.length then x :: y :: ys else y :: insertLenDesc x ys

/-- Python `sorted(items, key=lambda x: -len(x[0]))`: a stable sort of the
entries by descending key length. -/
def sortLenDesc (l : List (Str × Str)) : List (Str × Str) :=
  l.foldr insertLenDesc []

/-- The fallback emoji `"📦"`. -/
def FALLBACK_EMOJI : Str := "📦".data

/-- `get_emoji(skill_path, skill_name)` from the script. -/
def get_emoji (skill_path skill_name : Str) : Str :=
  match assocLookup skill_name API_EMOJI_OVERRIDES with
  | some e => e
  | none =>
    match (sortLenDesc EMOJI_MAP).find? (fun pe => strStartsWith skill_path pe.1) with
    | some pe => pe.2
    | none => FALLBACK_EMOJI

/-- The constant JSON text surrounding the emoji in
`json.dumps({"openclaw": {"emoji": emoji, "os": ALL_OS}}, ensure_ascii=False)`:
prefix up to the emoji value. -/
def metadataJsonPre : Str :=
  "metadata: \x7b\"openclaw\": \x7b\"emoji\": \"".data

/-- The constant JSON text after the emoji value (the serialized
`"os": ["darwin", "linux", "win32"]` field and closing braces). -/
def metadataJsonPost : Str :=
  "\", \"os\": [\"darwin\", \"linux\", \"win32\"]\x7d\x7d".data

/-- `build_metadata_line(skill_path, skill_name)` from the script.  The
Python code serializes the fixed-shape dict with `json.dumps(...,
ensure_ascii=False)`; every emoji the tables (or the fallback) can
produce contains no character JSON needs to escape, so the serialization
is literal string splicing around the emoji. -/
def build_metadata_line (skill_path skill_name : Str) : Str :=
  metadataJsonPre ++ get_emoji skill_path skill_name ++ metadataJsonPost

/-- `parse_frontmatter(content)` from the script.  The Python function
raises `ValueError` where this returns `none` (missing `"---\n"` start
marker, or `content.index("\n---\n", 4)` failing); on success it returns
`(fm_text, body, raw_block)` exactly as the source slices them. -/
def parse_frontmatter (content : Str) : Option (Str × Str × Str) :=
  if strStartsWith content ("---\n".data) then
    match findSub content ("\n---\n".data) 4 with
    | none => none
    | some endIdx =>
      some ((content.drop 4).take (endIdx - 4),
            content.drop (endIdx + 5),
            content.take (endIdx + 5))
  else none

/-- The guard on line 123 of the script:
`("\nmetadata:" in content.split("\n---\n")[0]) if ("\n---\n" in content) else False`.
`split("\n---\n")[0]` is the slice before the first occurrence of the
marker (searched from index 0). -/
def skipCheck (content : Str) : Bool :=
  match findSub content ("\n---\n".data) 0 with
  | some i => containsSub ("\nmetadata:".data) (content.take i)
  | none => false

/-- The literal line `user-invocable: true` injected for persona skills. -/
def uiLine : Str := "user-invocable: true".data

/-- The key prefix scanned for when deciding whether a frontmatter block
already defines the invocable flag. -/
def uiKey : Str := "user-invocable:".data

/-- The anchor key: new fields go immediately after the first line
starting with `description:`. -/
def descKey : Str := "description:".data

/-- The scan-and-splice loop of `process_skill` (lines 150-169), with the
`metadata_inserted` / `user_invocable_inserted` flags threaded
explicitly and the loop-invariant `any(l.startswith("user-invocable:")
for l in fm_lines)` test over the original lines precomputed as `hasInv`.
The `[]` case also performs the source's after-loop append for the case
where no anchor line was found. -/
def injectLoop (metadataLine : Str) (isPersona hasInv : Bool) :
    List Str → Bool → Bool → List Str
  | [], mi, _ =>
    if mi then []
    else metadataLine :: (if isPersona && !hasInv then [uiLine] else [])
  | line :: rest, mi, ui =>
    if strStartsWith line descKey && !mi then
      if isPersona && !ui && !hasInv then
        line :: metadataLine :: uiLine :: injectLoop metadataLine isPersona hasInv rest true true
      else
        line :: metadataLine :: injectLoop metadataLine isPersona hasInv rest true ui
    else
      line :: injectLoop metadataLine isPersona hasInv rest mi ui

/-- The new frontmatter line list built by `process_skill` from the
parsed frontmatter lines. -/
def newFmLines (fmLines : List Str) (metadataLine : Str) (isPersona : Bool) : List Str :=
  injectLoop metadataLine isPersona
    (fmLines.any (fun l => strStartsWith l uiKey)) fmLines false false

/-- Result of one `process_skill` call: its boolean return value, and
the content of the file after the call (written back only on the
non-dry-run modified path). -/
structure ProcessResult where
  modified : Bool
  newContent : Str
deriving DecidableEq, Repr

/-- `process_skill(skill_md_path, dry_run)` from the script, as a pure
function of the skill's relative directory path, its leaf directory
name, the dry-run flag and the file content.  Diagnostics (the SKIP /
ERROR / WARN / DRY-RUN / OK prints and the name-regex warning) carry no
state and are omitted. -/
def process_skill (skillPath skillName : Str) (dryRun : Bool) (content : Str) :
    ProcessResult :=
  if skipCheck content then
    { modified := false, newContent := content }
  else
    match parse_frontmatter content with
    | none => { modified := false, newContent := content }
    | some (fmText, body, _raw) =>
      let fmLines := splitNl fmText
      let metadataLine := build_metadata_line skillPath skillName
      let isPersona := strStartsWith skillPath ("personas/".data)
      let newLines := newFmLines fmLines metadataLine isPersona
      let newContent := "---\n".data ++ joinNl newLines ++ "\n---\n".data ++ body
      if dryRun then { modified := true, newContent := content }
      else { modified := true, newContent := newContent }

/-- One discovered file for the batch driver: relative directory path,
leaf directory name, file content. -/
abbrev BatchFile := Str × Str × Str

/-- The accumulation loop of `main` (lines 199-203): total processed,
total modified, and the contents of the files after the run. -/
def runBatch (dryRun : Bool) : List BatchFile → Nat × Nat × List Str
  | [] => (0, 0, [])
  | f :: rest =>
    let r := process_skill f.1 f.2.1 dryRun f.2.2
    let t := runBatch dryRun rest
    (t.1 + 1, (if r.modified then 1 else 0) + t.2.1, r.newContent :: t.2.2)

/-- `main()` from the script: runs the batch and returns exit status `0`
unconditionally (line 205). -/
def mainRun (dryRun : Bool) (files : List BatchFile) : (Nat × Nat × List Str) × Nat :=
  (runBatch dryRun files, 0)

/-- Iterating write-mode-or-dry-run `process_skill` on one file `k` times. -/
def iterProcess (skillPath skillName : Str) (dryRun : Bool) : Nat → Str → Str
  | 0, c => c
  | k + 1, c => iterProcess skillPath skillName dryRun k
      (process_skill skillPath skillName dryRun c).newContent

/-- Number of lines of a text that begin with `user-invocable:`. -/
def countUI (s : Str) : Nat :=
  (splitNl s).countP (fun l => strStartsWith l uiKey)

/-- The failure condition of the parser as the spec words it (for the
refinement comparison of the raises-iff claim): the text does not begin
with the start-marker line, or no terminating marker line — a line that
is exactly `---` — is present after the start line. -/
def specParseFails (content : Str) : Bool :=
  !(strStartsWith content ("---\n".data)) ||
  !(((splitNl content).drop 1).any (fun l => l == "---".data))

/-! ### Characterization of `findSub` (Python `str.index`) -/

theorem findSubAux_eq_some {pat : Str} :
    ∀ {t : Str} {i j : Nat}, findSubAux pat t i = some j →
      i ≤ j ∧ j - i ≤ t.length ∧ pat.isPrefixOf (t.drop (j - i)) = true ∧
        ∀ k, k < j - i → pat.isPrefixOf (t.drop k) = false := by
  intro t
  induction t with
  | nil =>
    intro i j h
    by_cases hp : pat = []
    · simp only [findSubAux, hp, if_pos, Option.some.injEq] at h
      subst h
      refine ⟨Nat.le_refl _, by simp, by simp [hp], ?_⟩
      intro k hk
      omega
    · simp [findSubAux, hp] at h
  | cons c rest ih =>
    intro i j h
    rw [findSubAux] at h
    by_cases hp : pat.isPrefixOf (c :: rest) = true
    · rw [if_pos hp] at h
      injection h with h
      subst h
      refine ⟨Nat.le_refl _, ?_, ?_, ?_⟩
      · simp
      · simpa using hp
      · intro k hk; omega
    · rw [if_neg hp] at h
      obtain ⟨h1, h2, h3, h4⟩ := ih h
      have hij : i + 1 ≤ j := h1
      refine ⟨by omega, by simp; omega, ?_, ?_⟩
      · have : j - i = (j - (i + 1)) + 1 := by omega
        rw [this]
        simpa using h3
      · intro k hk
        cases k with
        | zero => simpa using (Bool.not_eq_true _).mp hp
        | succ k' =>
          have : k' < j - (i + 1) := by omega
          simpa using h4 k' this

theorem findSubAux_intro {pat : Str} :
    ∀ {t : Str} {d : Nat} (i : Nat), pat.isPrefixOf (t.drop d) = true →
      (∀ k, k < d → pat.isPrefixOf (t.drop k) = false) →
      findSubAux pat t i = some (i + d) := by
  intro t
  induction t with
  | nil =>
    intro d i hpre hmin
    have hp : pat = [] := by
      simpa [List.isPrefixOf_iff_prefix] using hpre
    have hd : d = 0 := by
      by_contra hne
      have := hmin 0 (by omega)
      simp [hp] at this
    subst hd
    simp [findSubAux, hp]
  | cons c rest ih =>
    intro d i hpre hmin
    cases d with
    | zero =>
      rw [findSubAux, if_pos (by simpa using hpre)]
      simp
    | succ d' =>
      have h0 : pat.isPrefixOf (c :: rest) = false := by
        simpa using hmin 0 (by omega)
      rw [findSubAux, if_neg (by simp [h0])]
      have := ih (d := d') (i + 1) (by simpa using hpre)
        (fun k hk => by simpa using hmin (k + 1) (by omega))
      rw [this]
      congr 1
      omega

theorem findSubAux_eq_none_iff {pat : Str} (hpat : pat ≠ []) :
    ∀ {t : Str} {i : Nat}, findSubAux pat t i = none ↔
      ∀ k, pat.isPrefixOf (t.drop k) = false := by
  intro t
  induction t with
  | nil =>
    intro i
    constructor
    · intro _ k
      rw [List.drop_nil]
      match pat, hpat with
      | c :: cs, _ => rfl
    · intro _
      simp [findSubAux, hpat]
  | cons c rest ih =>
    intro i
    by_cases hp : pat.isPrefixOf (c :: rest) = true
    · simp only [findSubAux, if_pos hp]
      constructor
      · intro h; exact absurd h (by simp)
      · intro h
        have := h 0
        simp [hp] at this
    · simp only [findSubAux, if_neg hp]
      rw [ih]
      constructor
      · intro h k
        cases k with
        | zero => simpa using (Bool.not_eq_true _).mp hp
        | succ k' => simpa using h k'
      · intro h k
        simpa using h (k + 1)

theorem findSub_eq_some {s pat : Str} {st j : Nat} (h : findSub s pat st = some j) :
    st ≤ j ∧ pat.isPrefixOf (s.drop j) = true ∧
      ∀ i, st ≤ i → i < j → pat.isPrefixOf (s.drop i) = false := by
  obtain ⟨h1, _h2, h3, h4⟩ := findSubAux_eq_some h
  refine ⟨h1, ?_, ?_⟩
  · rw [List.drop_drop] at h3
    have : st + (j - st) = j := by omega
    rwa [this] at h3
  · intro i hsi hij
    have := h4 (i - st) (by omega)
    rw [List.drop_drop] at this
    have heq : st + (i - st) = i := by omega
    rwa [heq] at this

theorem findSub_intro {s pat : Str} {st j : Nat} (hst : st ≤ j)
    (hpre : pat.isPrefixOf (s.drop j) = true)
    (hmin : ∀ i, st ≤ i → i < j → pat.isPrefixOf (s.drop i) = false) :
    findSub s pat st = some j := by
  have hjd : st + (j - st) = j := by omega
  have h1 : pat.isPrefixOf ((s.drop st).drop (j - st)) = true := by
    rw [List.drop_drop, hjd]
    exact hpre
  have h2 : ∀ k, k < j - st → pat.isPrefixOf ((s.drop st).drop k) = false := by
    intro k hk
    rw [List.drop_drop]
    exact hmin (st + k) (by omega) (by omega)
  have := findSubAux_intro (t := s.drop st) (d := j - st) st h1 h2
  rw [findSub, this, hjd]

theorem findSub_eq_none_iff {s pat : Str} (hpat : pat ≠ []) {st : Nat} :
    findSub s pat st = none ↔ ∀ i, st ≤ i → pat.isPrefixOf (s.drop i) = false := by
  rw [findSub, findSubAux_eq_none_iff hpat]
  constructor
  · intro h i hi
    have := h (i - st)
    rw [List.drop_drop] at this
    have heq : st + (i - st) = i := by omega
    rwa [heq] at this
  · intro h k
    rw [List.drop_drop]
    exact h (st + k) (by omega)

theorem containsSub_intro {s pat : Str} (hpat : pat ≠ []) {i : Nat}
    (h : pat.isPrefixOf (s.drop i) = true) : containsSub pat s = true := by
  rw [containsSub]
  cases hfs : findSub s pat 0 with
  | some j => simp
  | none =>
    rw [findSub_eq_none_iff hpat] at hfs
    rw [hfs i (Nat.zero_le _)] at h
    exact absurd h (by simp)

/-! ### Structure of `splitNl` and `joinNl` -/

theorem splitNl_cons_eq {c : Char} {rest : Str} (hc : ¬ c = '\n') {l : Str}
    {ls : List Str} (h : splitNl rest = l :: ls) :
    splitNl (c :: rest) = (c :: l) :: ls := by
  rw [splitNl, if_neg hc, h]

theorem splitNl_ne_nil : ∀ s : Str, splitNl s ≠ [] := by
  intro s
  induction s with
  | nil => simp [splitNl]
  | cons c rest ih =>
    by_cases hc : c = '\n'
    · subst hc
      rw [splitNl, if_pos rfl]
      simp
    · cases heq : splitNl rest with
      | nil => exact absurd heq ih
      | cons l ls =>
        rw [splitNl_cons_eq hc heq]
        simp

theorem joinNl_cons_cons (a b : Str) (t : List Str) :
    joinNl (a :: b :: t) = a ++ '\n' :: joinNl (b :: t) := rfl

theorem splitNl_head : ∀ (s h : Str) (t : List Str), splitNl s = h :: t →
    (t = [] ∧ s = h) ∨ ∃ u, s = h ++ '\n' :: u ∧ t = splitNl u := by
  intro s
  induction s with
  | nil =>
    intro h t hs
    rw [splitNl] at hs
    injection hs with h1 h2
    exact Or.inl ⟨h2.symm, h1⟩
  | cons c rest ih =>
    intro h t hs
    by_cases hc : c = '\n'
    · subst hc
      rw [splitNl, if_pos rfl] at hs
      injection hs with h1 h2
      refine Or.inr ⟨rest, ?_, h2.symm⟩
      rw [← h1]
      rfl
    · cases heq : splitNl rest with
      | nil => exact absurd heq (splitNl_ne_nil rest)
      | cons l ls =>
        rw [splitNl_cons_eq hc heq] at hs
        injection hs with h1 h2
        rcases ih l ls heq with ⟨hls, hrest⟩ | ⟨u, hrest, hls⟩
        · refine Or.inl ⟨by rw [← h2, hls], ?_⟩
          rw [← h1, hrest]
        · refine Or.inr ⟨u, ?_, by rw [← h2, hls]⟩
          rw [← h1, hrest]
          rfl

theorem splitNl_tail_shape : ∀ (s l : Str), l ∈ (splitNl s).tail →
    ∃ pre suf, s = pre ++ '\n' :: (l ++ suf) ∧ (suf = [] ∨ ∃ u, suf = '\n' :: u) := by
  intro s
  induction s with
  | nil =>
    intro l hl
    rw [splitNl] at hl
    simp at hl
  | cons c rest ih =>
    intro l hl
    by_cases hc : c = '\n'
    · subst hc
      rw [splitNl, if_pos rfl] at hl
      simp only [List.tail_cons] at hl
      cases heq : splitNl rest with
      | nil => exact absurd heq (splitNl_ne_nil rest)
      | cons hd tl =>
        rw [heq] at hl
        rcases List.mem_cons.mp hl with rfl | hmem
        · rcases splitNl_head rest l tl heq with ⟨_, hrest⟩ | ⟨u, hrest, _⟩
          · exact ⟨[], [], by simp [hrest], Or.inl rfl⟩
          · exact ⟨[], '\n' :: u, by simp [hrest], Or.inr ⟨u, rfl⟩⟩
        · obtain ⟨pre, suf, hrest, hsuf⟩ := ih l (by rw [heq]; simpa using hmem)
          exact ⟨'\n' :: pre, suf, by rw [hrest]; rfl, hsuf⟩
    · cases heq : splitNl rest with
      | nil => exact absurd heq (splitNl_ne_nil rest)
      | cons hd tl =>
        rw [splitNl_cons_eq hc heq] at hl
        simp only [List.tail_cons] at hl
        obtain ⟨pre, suf, hrest, hsuf⟩ := ih l (by rw [heq]; simpa using hl)
        exact ⟨c :: pre, suf, by rw [hrest]; rfl, hsuf⟩

theorem splitNl_no_nl : ∀ (s l : Str), l ∈ splitNl s → '\n' ∉ l := by
  intro s
  induction s with
  | nil =>
    intro l hl
    rw [splitNl] at hl
    simp at hl
    simp [hl]
  | cons c rest ih =>
    intro l hl
    by_cases hc : c = '\n'
    · subst hc
      rw [splitNl, if_pos rfl] at hl
      rcases List.mem_cons.mp hl with rfl | hmem
      · simp
      · exact ih l hmem
    · cases heq : splitNl rest with
      | nil => exact absurd heq (splitNl_ne_nil rest)
      | cons hd tl =>
        rw [splitNl_cons_eq hc heq] at hl
        rcases List.mem_cons.mp hl with rfl | hmem
        · intro hmem2
          rcases List.mem_cons.mp hmem2 with heq2 | hmem3
          · exact hc heq2.symm
          · exact ih hd (by rw [heq]; exact List.mem_cons_self _ _) hmem3
        · exact ih l (by rw [heq]; exact List.mem_cons_of_mem _ hmem)

theorem splitNl_cons_nl (rest : Str) : splitNl ('\n' :: rest) = [] :: splitNl rest := by
  rw [splitNl]
  simp

theorem splitNl_append : ∀ (a b : Str), splitNl (a ++ '\n' :: b) = splitNl a ++ splitNl b := by
  intro a
  induction a with
  | nil =>
    intro b
    show splitNl ('\n' :: b) = [[]] ++ splitNl b
    rw [splitNl_cons_nl]
    rfl
  | cons c a' ih =>
    intro b
    by_cases hc : c = '\n'
    · subst hc
      show splitNl ('\n' :: (a' ++ '\n' :: b)) = splitNl ('\n' :: a') ++ splitNl b
      rw [splitNl_cons_nl, ih, splitNl_cons_nl]
      rfl
    · cases heq : splitNl a' with
      | nil => exact absurd heq (splitNl_ne_nil a')
      | cons hd tl =>
        have h2 : splitNl (a' ++ '\n' :: b) = hd :: (tl ++ splitNl b) := by
          rw [ih, heq]
          rfl
        show splitNl (c :: (a' ++ '\n' :: b)) = splitNl (c :: a') ++ splitNl b
        rw [splitNl_cons_eq hc h2, splitNl_cons_eq hc heq]
        rfl

theorem splitNl_eq_single : ∀ {s : Str}, '\n' ∉ s → splitNl s = [s] := by
  intro s
  induction s with
  | nil => intro _; rfl
  | cons c rest ih =>
    intro h
    have hc : ¬ c = '\n' := fun hc => h (hc ▸ List.mem_cons_self _ _)
    have hrest : '\n' ∉ rest := fun hm => h (List.mem_cons_of_mem _ hm)
    rw [splitNl_cons_eq hc (ih hrest)]

theorem splitNl_joinNl : ∀ (ls : List Str), ls ≠ [] → (∀ l ∈ ls, '\n' ∉ l) →
    splitNl (joinNl ls) = ls := by
  intro ls
  induction ls with
  | nil => intro h; exact absurd rfl h
  | cons a t ih =>
    intro _ hnl
    cases t with
    | nil =>
      show splitNl (joinNl [a]) = [a]
      rw [joinNl]
      exact splitNl_eq_single (hnl a (List.mem_cons_self _ _))
    | cons b t' =>
      rw [joinNl_cons_cons, splitNl_append,
        splitNl_eq_single (hnl a (List.mem_cons_self _ _)),
        ih (by simp) (fun l hl => hnl l (List.mem_cons_of_mem _ hl))]
      rfl

theorem joinNl_append_cons : ∀ (A : List Str) (x : Str) (B : List Str), A ≠ [] →
    joinNl (A ++ x :: B) = joinNl A ++ '\n' :: joinNl (x :: B) := by
  intro A
  induction A with
  | nil => intro x B h; exact absurd rfl h
  | cons a A' ih =>
    intro x B _
    cases A' with
    | nil =>
      show joinNl (a :: x :: B) = joinNl [a] ++ '\n' :: joinNl (x :: B)
      rw [joinNl_cons_cons, joinNl]
    | cons a' A'' =>
      show joinNl (a :: ((a' :: A'') ++ x :: B)) =
        joinNl (a :: a' :: A'') ++ '\n' :: joinNl (x :: B)
      rw [List.cons_append, joinNl_cons_cons, ← List.cons_append, ih x B (by simp),
        joinNl_cons_cons, List.append_assoc]
      rfl

/-! ### Structure of the scan-and-splice loop -/

theorem injectLoop_mi_true (m : Str) (ip hi : Bool) :
    ∀ (ls : List Str) (ui : Bool), injectLoop m ip hi ls true ui = ls := by
  intro ls
  induction ls with
  | nil => intro ui; rfl
  | cons a r ih =>
    intro ui
    rw [injectLoop]
    simp [ih]

theorem injectLoop_anchor (m : Str) (ip hi : Bool) :
    ∀ (pre : List Str) (d : Str) (post : List Str) (ui : Bool),
      (∀ l ∈ pre, strStartsWith l descKey = false) →
      strStartsWith d descKey = true →
      injectLoop m ip hi (pre ++ d :: post) false ui =
        pre ++ d :: m :: ((if ip && !ui && !hi then [uiLine] else []) ++ post) := by
  intro pre
  induction pre with
  | nil =>
    intro d post ui _ hd
    rw [List.nil_append, injectLoop, if_pos (by simp [hd])]
    by_cases hb : (ip && !ui && !hi) = true
    · rw [if_pos hb, hb, if_pos rfl, injectLoop_mi_true]
      rfl
    · rw [if_neg hb, eq_false_of_ne_true hb, if_neg (by simp), injectLoop_mi_true]
      rfl
  | cons a pre' ih =>
    intro d post ui hpre hd
    have ha : strStartsWith a descKey = false := hpre a (List.mem_cons_self _ _)
    rw [List.cons_append, injectLoop, if_neg (by simp [ha]),
      ih d post ui (fun l hl => hpre l (List.mem_cons_of_mem _ hl)) hd]
    rfl

theorem injectLoop_no_anchor (m : Str) (ip hi : Bool) :
    ∀ (ls : List Str) (ui : Bool), (∀ l ∈ ls, strStartsWith l descKey = false) →
      injectLoop m ip hi ls false ui = ls ++ m :: (if ip && !hi then [uiLine] else []) := by
  intro ls
  induction ls with
  | nil => intro ui _; rfl
  | cons a r ih =>
    intro ui h
    have ha : strStartsWith a descKey = false := h a (List.mem_cons_self _ _)
    rw [injectLoop, if_neg (by simp [ha]), ih ui (fun l hl => h l (List.mem_cons_of_mem _ hl))]
    rfl

theorem injectLoop_mem (m : Str) (ip hi : Bool) :
    ∀ (ls : List Str) (mi ui : Bool) (l : Str), l ∈ injectLoop m ip hi ls mi ui →
      l ∈ ls ∨ l = m ∨ l = uiLine := by
  intro ls
  induction ls with
  | nil =>
    intro mi ui l hl
    rw [injectLoop] at hl
    by_cases hmi : mi = true
    · rw [if_pos hmi] at hl
      simp at hl
    · rw [if_neg hmi] at hl
      rcases List.mem_cons.mp hl with rfl | hl2
      · exact Or.inr (Or.inl rfl)
      · by_cases hb : (ip && !hi) = true
        · rw [if_pos hb] at hl2
          rcases List.mem_cons.mp hl2 with rfl | h3
          · exact Or.inr (Or.inr rfl)
          · simp at h3
        · rw [if_neg hb] at hl2
          simp at hl2
  | cons a r ih =>
    intro mi ui l hl
    rw [injectLoop] at hl
    by_cases h1 : (strStartsWith a descKey && !mi) = true
    · rw [if_pos h1] at hl
      by_cases h2 : (ip && !ui && !hi) = true
      · rw [if_pos h2] at hl
        rcases List.mem_cons.mp hl with rfl | hl2
        · exact Or.inl (List.mem_cons_self _ _)
        rcases List.mem_cons.mp hl2 with rfl | hl3
        · exact Or.inr (Or.inl rfl)
        rcases List.mem_cons.mp hl3 with rfl | hl4
        · exact Or.inr (Or.inr rfl)
        · rcases ih _ _ _ hl4 with h | h
          · exact Or.inl (List.mem_cons_of_mem _ h)
          · exact Or.inr h
      · rw [if_neg h2] at hl
        rcases List.mem_cons.mp hl with rfl | hl2
        · exact Or.inl (List.mem_cons_self _ _)
        rcases List.mem_cons.mp hl2 with rfl | hl3
        · exact Or.inr (Or.inl rfl)
        · rcases ih _ _ _ hl3 with h | h
          · exact Or.inl (List.mem_cons_of_mem _ h)
          · exact Or.inr h
    · rw [if_neg h1] at hl
      rcases List.mem_cons.mp hl with rfl | hl2
      · exact Or.inl (List.mem_cons_self _ _)
      · rcases ih _ _ _ hl2 with h | h
        · exact Or.inl (List.mem_cons_of_mem _ h)
        · exact Or.inr h

theorem injectLoop_cons_ex (m : Str) (ip hi : Bool) (a : Str) (r : List Str)
    (mi ui : Bool) : ∃ t, injectLoop m ip hi (a :: r) mi ui = a :: t := by
  rw [injectLoop]
  split
  · split
    · exact ⟨_, rfl⟩
    · exact ⟨_, rfl⟩
  · exact ⟨_, rfl⟩

theorem list_first_split (p : Str → Bool) :
    ∀ l : List Str, (∀ x ∈ l, p x = false) ∨
      ∃ pre d post, l = pre ++ d :: post ∧ p d = true ∧ ∀ x ∈ pre, p x = false := by
  intro l
  induction l with
  | nil => exact Or.inl (by simp)
  | cons a r ih =>
    by_cases ha : p a = true
    · exact Or.inr ⟨[], a, r, rfl, ha, by simp⟩
    · rcases ih with h | ⟨pre, d, post, heq, hd, hpre⟩
      · refine Or.inl ?_
        intro x hx
        rcases List.mem_cons.mp hx with rfl | hx2
        · exact eq_false_of_ne_true ha
        · exact h x hx2
      · refine Or.inr ⟨a :: pre, d, post, by rw [heq]; rfl, hd, ?_⟩
        intro x hx
        rcases List.mem_cons.mp hx with rfl | hx2
        · exact eq_false_of_ne_true ha
        · exact hpre x hx2

/-! ### Anatomy of a successful parse -/

theorem parse_frontmatter_eq_some {c fm bd raw : Str}
    (h : parse_frontmatter c = some (fm, bd, raw)) :
    c = "---\n".data ++ fm ++ "\n---\n".data ++ bd ∧
    raw = "---\n".data ++ fm ++ "\n---\n".data ∧
    findSub c ("\n---\n".data) 4 = some (4 + fm.length) ∧
    ∀ k, ("\n---\n".data).isPrefixOf (fm.drop k) = false := by
  rw [parse_frontmatter] at h
  by_cases hsw : strStartsWith c ("---\n".data) = true
  case neg => rw [if_neg hsw] at h; exact absurd h (by simp)
  rw [if_pos hsw] at h
  cases hfs : findSub c ("\n---\n".data) 4 with
  | none => rw [hfs] at h; exact absurd h (by simp)
  | some e =>
    rw [hfs] at h
    rw [Option.some.injEq, Prod.mk.injEq, Prod.mk.injEq] at h
    obtain ⟨hfm, hbd, hraw⟩ := h
    obtain ⟨h4e, hpre, hmin⟩ := findSub_eq_some hfs
    have htake4 : c.take 4 = "---\n".data := by
      rw [strStartsWith, List.isPrefixOf_iff_prefix] at hsw
      have h2 := List.prefix_iff_eq_take.mp hsw
      rw [show (4 : Nat) = ("---\n".data).length from rfl]
      exact h2.symm
    have hdropE : c.drop e = "\n---\n".data ++ c.drop (e + 5) := by
      rw [List.isPrefixOf_iff_prefix] at hpre
      obtain ⟨t, ht⟩ := hpre
      have htl : t = c.drop (e + 5) := by
        have : (c.drop e).drop 5 = t := by rw [← ht]; rfl
        rw [← this, List.drop_drop]
      rw [← ht, htl]
    have hlenE : e < c.length := by
      have hne : c.drop e ≠ [] := by
        rw [hdropE]
        simp
      have := List.length_drop e c
      by_contra hcon
      push_neg at hcon
      have : c.drop e = [] := List.drop_eq_nil_of_le hcon
      exact hne this
    have hfmlen : fm.length = e - 4 := by
      rw [← hfm, List.length_take, List.length_drop]
      omega
    have hsplit : c = "---\n".data ++ fm ++ "\n---\n".data ++ bd := by
      conv_lhs => rw [← List.take_append_drop 4 c]
      rw [htake4]
      have h2 : c.drop 4 = fm ++ c.drop e := by
        conv_lhs => rw [← List.take_append_drop (e - 4) (c.drop 4)]
        rw [← hfm, List.drop_drop]
        congr 2
        omega
      rw [h2, hdropE, ← hbd]
      simp [List.append_assoc]
    have hraw2 : raw = "---\n".data ++ fm ++ "\n---\n".data := by
      rw [← hraw]
      conv_lhs => rw [hsplit]
      have hlen : ("---\n".data ++ fm ++ "\n---\n".data).length = e + 5 := by
        simp [List.length_append]
        omega
      rw [List.append_assoc, List.append_assoc]
      rw [show ("---\n".data ++ (fm ++ ("\n---\n".data ++ bd))) =
        ("---\n".data ++ fm ++ "\n---\n".data) ++ bd by simp [List.append_assoc]]
      rw [List.take_append_of_le_length (by rw [hlen])]
      rw [List.take_of_length_le (by rw [hlen])]
    refine ⟨hsplit, hraw2, ?_, ?_⟩
    · have he : e = 4 + fm.length := by omega
      rw [he]
    · intro k
      by_cases hk : k < fm.length
      · have hdrop : c.drop (4 + k) = fm.drop k ++ ("\n---\n".data ++ bd) := by
          have hc2 : c = "---\n".data ++ (fm ++ ("\n---\n".data ++ bd)) := by
            rw [hsplit]
            simp [List.append_assoc]
          rw [hc2]
          rw [show (4 : Nat) + k = ("---\n".data).length + k from rfl]
          rw [List.drop_append]
          exact List.drop_append_of_le_length (by omega)
        by_contra hcon
        have hcon2 : ("\n---\n".data).isPrefixOf (fm.drop k) = true := by
          revert hcon
          cases ("\n---\n".data).isPrefixOf (fm.drop k) <;> simp
        have hlift : ("\n---\n".data).isPrefixOf (c.drop (4 + k)) = true := by
          rw [hdrop, List.isPrefixOf_iff_prefix] at *
          exact hcon2.trans (List.prefix_append _ _)
        have := hmin (4 + k) (by omega) (by omega)
        rw [this] at hlift
        exact absurd hlift (by simp)
      · have : fm.drop k = [] := List.drop_eq_nil_of_le (by omega)
        rw [this]
        decide

theorem fm_no_marker_line_tail {c fm bd raw : Str}
    (h : parse_frontmatter c = some (fm, bd, raw)) :
    "---".data ∉ (splitNl fm).tail := by
  obtain ⟨hsplit, _, hfs, hnofm⟩ := parse_frontmatter_eq_some h
  intro hmem
  obtain ⟨pre, suf, hfm, hsuf⟩ := splitNl_tail_shape fm "---".data hmem
  rcases hsuf with rfl | ⟨u, rfl⟩
  · -- the marker would be the last line of the block: an occurrence of
    -- "\n---\n" in the content strictly before the one the parser found
    obtain ⟨_, _, hmin⟩ := findSub_eq_some hfs
    have hlen : fm.length = pre.length + 4 := by
      rw [hfm]
      simp
    have hdrop : c.drop (4 + pre.length) =
        '\n' :: ("---".data ++ ("\n---\n".data ++ bd)) := by
      have hc2 : c = "---\n".data ++ (fm ++ ("\n---\n".data ++ bd)) := by
        rw [hsplit]
        simp [List.append_assoc]
      rw [hc2, show (4 : Nat) + pre.length = ("---\n".data).length + pre.length from rfl,
        List.drop_append]
      rw [hfm, List.append_nil, List.append_assoc, List.drop_left]
      rfl
    have hp : ("\n---\n".data).isPrefixOf (c.drop (4 + pre.length)) = true := by
      rw [hdrop, List.isPrefixOf_iff_prefix]
      exact ⟨"---\n".data ++ bd, rfl⟩
    have := hmin (4 + pre.length) (by omega) (by omega)
    rw [this] at hp
    exact absurd hp (by simp)
  · -- the marker would be an interior line: "\n---\n" would occur inside fm
    have hp : ("\n---\n".data).isPrefixOf (fm.drop pre.length) = true := by
      rw [hfm, List.drop_left]
      rw [List.isPrefixOf_iff_prefix]
      exact ⟨u, rfl⟩
    rw [hnofm pre.length] at hp
    exact absurd hp (by simp)

theorem fm_head_ne_marker {c fm bd raw : Str}
    (h : parse_frontmatter c = some (fm, bd, raw))
    (hhead : strStartsWith c ("---\n---\n".data) = false) :
    ∀ t, splitNl fm = "---".data :: t → False := by
  obtain ⟨hsplit, _, _, _⟩ := parse_frontmatter_eq_some h
  intro t hfmhead
  have hpre : strStartsWith c ("---\n---\n".data) = true := by
    rw [strStartsWith, List.isPrefixOf_iff_prefix]
    rcases splitNl_head fm _ t hfmhead with ⟨_, hfm⟩ | ⟨u, hfm, _⟩
    · refine ⟨"---\n".data ++ bd, ?_⟩
      rw [hsplit, hfm]
      rfl
    · refine ⟨(u ++ "\n---\n".data) ++ bd, ?_⟩
      rw [hsplit, hfm]
      rfl
  rw [hhead] at hpre
  exact absurd hpre (by simp)

/-! ### Facts about emojis and the injected lines -/

theorem assocLookup_mem {k v : Str} :
    ∀ {l : List (Str × Str)}, assocLookup k l = some v → (k, v) ∈ l := by
  intro l
  induction l with
  | nil => intro h; exact absurd h (by simp [assocLookup])
  | cons a rest ih =>
    obtain ⟨k', v'⟩ := a
    intro h
    rw [assocLookup] at h
    by_cases hk : k = k'
    · rw [if_pos hk] at h
      injection h with h
      rw [hk, ← h]
      exact List.mem_cons_self _ _
    · rw [if_neg hk] at h
      exact List.mem_cons_of_mem _ (ih h)

theorem mem_insertLenDesc {x y : Str × Str} :
    ∀ {l : List (Str × Str)}, x ∈ insertLenDesc y l ↔ x = y ∨ x ∈ l := by
  intro l
  induction l with
  | nil => simp [insertLenDesc]
  | cons a rest ih =>
    rw [insertLenDesc]
    by_cases hc : y.1.length ≥ a.1.length
    · rw [if_pos hc]
      simp
    · rw [if_neg hc]
      simp only [List.mem_cons, ih]
      tauto

theorem mem_sortLenDesc {x : Str × Str} :
    ∀ {l : List (Str × Str)}, x ∈ sortLenDesc l ↔ x ∈ l := by
  intro l
  induction l with
  | nil => simp [sortLenDesc]
  | cons a rest ih =>
    show x ∈ insertLenDesc a (sortLenDesc rest) ↔ _
    rw [mem_insertLenDesc, ih]
    simp

theorem get_emoji_no_nl (p n : Str) : '\n' ∉ get_emoji p n := by
  rw [get_emoji]
  cases ha : assocLookup n API_EMOJI_OVERRIDES with
  | some e =>
    have hm := assocLookup_mem ha
    have : ∀ pe ∈ API_EMOJI_OVERRIDES, '\n' ∉ pe.2 := by decide
    exact this _ hm
  | none =>
    cases hf : (sortLenDesc EMOJI_MAP).find? (fun pe => strStartsWith p pe.1) with
    | some pe =>
      have hm := mem_sortLenDesc.mp (List.mem_of_find?_eq_some hf)
      have : ∀ pe ∈ EMOJI_MAP, '\n' ∉ pe.2 := by decide
      exact this _ hm
    | none => decide

theorem get_emoji_ne_marker (p n : Str) : get_emoji p n ≠ "---".data := by
  rw [get_emoji]
  cases ha : assocLookup n API_EMOJI_OVERRIDES with
  | some e =>
    have hm := assocLookup_mem ha
    have : ∀ pe ∈ API_EMOJI_OVERRIDES, pe.2 ≠ "---".data := by decide
    exact this _ hm
  | none =>
    cases hf : (sortLenDesc EMOJI_MAP).find? (fun pe => strStartsWith p pe.1) with
    | some pe =>
      have hm := mem_sortLenDesc.mp (List.mem_of_find?_eq_some hf)
      have : ∀ pe ∈ EMOJI_MAP, pe.2 ≠ "---".data := by decide
      exact this _ hm
    | none => decide

theorem head_ne_not_isPrefixOf {a b : Char} {s t : Str} (h : ¬ a = b) :
    (a :: s).isPrefixOf (b :: t) = false := by
  cases hp : (a :: s).isPrefixOf (b :: t) with
  | false => rfl
  | true =>
    rw [List.isPrefixOf_iff_prefix, List.cons_prefix_cons] at hp
    exact absurd hp.1 h

theorem cons_isPrefixOf_cons_same (a : Char) (s t : Str) :
    (a :: s).isPrefixOf (a :: t) = s.isPrefixOf t := by
  rw [List.isPrefixOf]
  simp

theorem marker_not_prefix_of_line {hd : Str} (h1 : '\n' ∉ hd) (h2 : hd ≠ "---".data)
    (tl : Str) : ("---\n".data).isPrefixOf (hd ++ '\n' :: tl) = false := by
  cases hp : ("---\n".data).isPrefixOf (hd ++ '\n' :: tl) with
  | false => rfl
  | true =>
    exfalso
    rw [List.isPrefixOf_iff_prefix] at hp
    obtain ⟨r, hr⟩ := hp
    match hd, h1, h2 with
    | [], _, _ =>
      rw [List.nil_append] at hr
      have := congrArg List.head? hr
      simp at this
    | [a], h1, _ =>
      have hr2 : '-' :: ('-' :: ('-' :: ('\n' :: r))) = a :: '\n' :: tl := hr
      injection hr2 with ha hr3
      injection hr3 with hb _
      exact absurd hb (by decide)
    | [a, b], h1, _ =>
      have hr2 : '-' :: ('-' :: ('-' :: ('\n' :: r))) = a :: b :: '\n' :: tl := hr
      injection hr2 with ha hr3
      injection hr3 with hb hr4
      injection hr4 with hc _
      exact absurd hc (by decide)
    | [a, b, c], _, h2 =>
      have hr2 : '-' :: ('-' :: ('-' :: ('\n' :: r))) = a :: b :: c :: '\n' :: tl := hr
      injection hr2 with ha hr3
      injection hr3 with hb hr4
      injection hr4 with hc _
      exact h2 (by rw [← ha, ← hb, ← hc])
    | a :: b :: c :: d :: rest, h1, _ =>
      have hr2 : '-' :: ('-' :: ('-' :: ('\n' :: r))) =
        a :: b :: c :: d :: (rest ++ '\n' :: tl) := hr
      injection hr2 with _ hr3
      injection hr3 with _ hr4
      injection hr4 with _ hr5
      injection hr5 with hd4 _
      exact h1 (by rw [hd4]; exact List.mem_cons_of_mem _ (List.mem_cons_of_mem _
        (List.mem_cons_of_mem _ (List.mem_cons_self _ _))))

theorem no_marker_in_join : ∀ (ls : List Str), (∀ l ∈ ls, '\n' ∉ l) →
    (∀ l ∈ ls.tail, l ≠ "---".data) → ∀ (r : Str) (j : Nat), j < (joinNl ls).length →
    ("\n---\n".data).isPrefixOf ((joinNl (ls ++ [r])).drop j) = false := by
  intro ls
  induction ls with
  | nil =>
    intro _ _ r j hj
    rw [joinNl] at hj
    simp at hj
  | cons a t ih =>
    intro hnl htl r j hj
    cases t with
    | nil =>
      rw [show joinNl [a] = a from rfl] at hj
      have hdj : (joinNl ([a] ++ [r])).drop j = a.drop j ++ '\n' :: r := by
        rw [show joinNl ([a] ++ [r]) = a ++ '\n' :: r from rfl]
        exact List.drop_append_of_le_length (by omega)
      rw [hdj]
      cases hd : a.drop j with
      | nil =>
        exfalso
        have := List.length_drop j a
        rw [hd] at this
        simp at this
        omega
      | cons x xs =>
        rw [List.cons_append, show ("\n---\n".data : Str) = '\n' :: "---\n".data from rfl]
        have hx : x ∈ a := List.drop_subset j a (hd ▸ List.mem_cons_self x xs)
        have hxn : ¬ ('\n' : Char) = x := fun he => hnl a (List.mem_cons_self _ _) (he ▸ hx)
        exact head_ne_not_isPrefixOf hxn
    | cons b t' =>
      rw [joinNl_cons_cons] at hj
      have hlen : (a ++ '\n' :: joinNl (b :: t')).length =
          a.length + 1 + (joinNl (b :: t')).length := by
        simp
        omega
      rw [hlen] at hj
      have hjoin : joinNl ((a :: b :: t') ++ [r]) =
          a ++ '\n' :: joinNl ((b :: t') ++ [r]) := by
        rw [List.cons_append, List.cons_append, joinNl_cons_cons]
      rcases Nat.lt_trichotomy j a.length with hlt | heqj | hgt
      · rw [hjoin, List.drop_append_of_le_length (by omega)]
        cases hd : a.drop j with
        | nil =>
          exfalso
          have := List.length_drop j a
          rw [hd] at this
          simp at this
          omega
        | cons x xs =>
          rw [List.cons_append]
          have hx : x ∈ a := List.drop_subset j a (hd ▸ List.mem_cons_self x xs)
          have hxn : ¬ ('\n' : Char) = x := fun he => hnl a (List.mem_cons_self _ _) (he ▸ hx)
          exact head_ne_not_isPrefixOf hxn
      · subst heqj
        have hdj : (joinNl ((a :: b :: t') ++ [r])).drop a.length =
            '\n' :: joinNl ((b :: t') ++ [r]) := by
          rw [hjoin, List.drop_append_of_le_length (Nat.le_refl _), List.drop_length,
            List.nil_append]
        rw [hdj, show ("\n---\n".data) = '\n' :: "---\n".data from rfl,
          cons_isPrefixOf_cons_same]
        have hjoin2 : joinNl ((b :: t') ++ [r]) = b ++ '\n' :: joinNl (t' ++ [r]) := by
          cases t' with
          | nil => rfl
          | cons x xs => rfl
        rw [hjoin2]
        exact marker_not_prefix_of_line
          (hnl b (List.mem_cons_of_mem _ (List.mem_cons_self _ _)))
          (htl b (List.mem_cons_self _ _)) _
      · have hj' : j - a.length - 1 < (joinNl (b :: t')).length := by omega
        have harith : (a ++ ['\n']).length + (j - a.length - 1) = j := by
          simp
          omega
        have hdj : (joinNl ((a :: b :: t') ++ [r])).drop j =
            (joinNl ((b :: t') ++ [r])).drop (j - a.length - 1) := by
          rw [hjoin, show a ++ '\n' :: joinNl ((b :: t') ++ [r]) =
            (a ++ ['\n']) ++ joinNl ((b :: t') ++ [r]) by simp]
          conv_lhs => rw [← harith]
          rw [List.drop_append]
        rw [hdj]
        exact ih (fun l hl => hnl l (List.mem_cons_of_mem _ hl))
          (fun l hl => htl l (List.mem_cons_of_mem _ hl)) r _ hj'

theorem build_metadata_line_cons (p n : Str) :
    build_metadata_line p n =
      'm' :: ("etadata: \x7b\"openclaw\": \x7b\"emoji\": \"".data ++
        (get_emoji p n ++ metadataJsonPost)) := by
  rw [build_metadata_line, show metadataJsonPre =
    'm' :: "etadata: \x7b\"openclaw\": \x7b\"emoji\": \"".data from rfl]
  simp

theorem metadata_line_not_ui (p n : Str) :
    strStartsWith (build_metadata_line p n) uiKey = false := by
  rw [strStartsWith, build_metadata_line_cons,
    show uiKey = 'u' :: "ser-invocable:".data from rfl]
  exact head_ne_not_isPrefixOf (by decide)

theorem metadata_line_not_desc (p n : Str) :
    strStartsWith (build_metadata_line p n) descKey = false := by
  rw [strStartsWith, build_metadata_line_cons,
    show descKey = 'd' :: "escription:".data from rfl]
  exact head_ne_not_isPrefixOf (by decide)

theorem metadata_line_ne_marker (p n : Str) : build_metadata_line p n ≠ "---".data := by
  rw [build_metadata_line_cons, show ("---".data : Str) = '-' :: "--".data from rfl]
  intro hcon
  injection hcon with h1 _
  exact absurd h1 (by decide)

theorem metadata_line_no_nl (p n : Str) : '\n' ∉ build_metadata_line p n := by
  rw [build_metadata_line]
  intro hcon
  rcases List.mem_append.mp hcon with hc | hc
  · rcases List.mem_append.mp hc with hc2 | hc2
    · exact absurd hc2 (by decide)
    · exact get_emoji_no_nl p n hc2
  · exact absurd hc (by decide)

theorem metadata_key_front (p n : Str) :
    ("metadata:".data : Str) <+: build_metadata_line p n := by
  rw [build_metadata_line]
  have h1 : ("metadata:".data : Str) <+: metadataJsonPre := by
    rw [← List.isPrefixOf_iff_prefix]
    decide
  exact (h1.trans (List.prefix_append _ _)).trans (List.prefix_append _ _)

/-! ### `process_skill` branch equations -/

theorem process_skill_of_skip {p n : Str} {dr : Bool} {c : Str} (h : skipCheck c = true) :
    process_skill p n dr c = ⟨false, c⟩ := by
  rw [process_skill, if_pos h]

theorem process_skill_of_err {p n : Str} {dr : Bool} {c : Str}
    (hs : skipCheck c = false) (hp : parse_frontmatter c = none) :
    process_skill p n dr c = ⟨false, c⟩ := by
  rw [process_skill, if_neg (by simp [hs]), hp]

theorem process_skill_of_parse {p n : Str} {dr : Bool} {c fm bd raw : Str}
    (hs : skipCheck c = false) (hp : parse_frontmatter c = some (fm, bd, raw)) :
    process_skill p n dr c =
      if dr then ⟨true, c⟩
      else ⟨true, "---\n".data ++
        joinNl (newFmLines (splitNl fm) (build_metadata_line p n)
          (strStartsWith p ("personas/".data))) ++ "\n---\n".data ++ bd⟩ := by
  rw [process_skill, if_neg (by simp [hs]), hp]

/-! ### Structure of the rewritten line list -/

theorem newFmLines_cases (fl : List Str) (m : Str) (ip : Bool) :
    (∃ pre d post, fl = pre ++ d :: post ∧ strStartsWith d descKey = true ∧
      (∀ l ∈ pre, strStartsWith l descKey = false) ∧
      newFmLines fl m ip = pre ++ d :: m ::
        ((if ip && !(fl.any (fun l => strStartsWith l uiKey)) then [uiLine] else []) ++ post)) ∨
    ((∀ l ∈ fl, strStartsWith l descKey = false) ∧
      newFmLines fl m ip = fl ++ m ::
        (if ip && !(fl.any (fun l => strStartsWith l uiKey)) then [uiLine] else [])) := by
  rcases list_first_split (fun l => strStartsWith l descKey) fl with h | ⟨pre, d, post, heq, hd, hpre⟩
  · refine Or.inr ⟨h, ?_⟩
    rw [newFmLines, injectLoop_no_anchor _ _ _ _ _ h]
  · refine Or.inl ⟨pre, d, post, heq, hd, hpre, ?_⟩
    have key : ∀ hi, injectLoop m ip hi fl false false =
        pre ++ d :: m :: ((if ip && !hi then [uiLine] else []) ++ post) := by
      intro hi
      rw [heq]
      have := injectLoop_anchor m ip hi pre d post false hpre hd
      simpa using this
    rw [newFmLines, key]

theorem newFmLines_split (fl : List Str) (m : Str) (ip : Bool) (hfl : fl ≠ []) :
    ∃ A B, newFmLines fl m ip = A ++ m :: B ∧ A ≠ [] := by
  rcases newFmLines_cases fl m ip with ⟨pre, d, post, _, _, _, heq⟩ | ⟨_, heq⟩
  · refine ⟨pre ++ [d],
      (if ip && !(fl.any (fun l => strStartsWith l uiKey)) then [uiLine] else []) ++ post,
      ?_, by simp⟩
    rw [heq]
    simp
  · exact ⟨fl, if ip && !(fl.any (fun l => strStartsWith l uiKey)) then [uiLine] else [],
      heq, hfl⟩

theorem newFmLines_mem (fl : List Str) (m : Str) (ip : Bool) :
    ∀ l ∈ newFmLines fl m ip, l ∈ fl ∨ l = m ∨ l = uiLine := by
  intro l hl
  exact injectLoop_mem _ _ _ _ _ _ _ hl

theorem newFmLines_head (a : Str) (r : List Str) (m : Str) (ip : Bool) :
    ∃ t, newFmLines (a :: r) m ip = a :: t := by
  rw [newFmLines]
  exact injectLoop_cons_ex _ _ _ _ _ _ _

theorem newFmLines_tail_mem (fl : List Str) (m : Str) (ip : Bool) :
    ∀ l ∈ (newFmLines fl m ip).tail, l ∈ fl.tail ∨ l = m ∨ l = uiLine := by
  intro l hl
  rcases newFmLines_cases fl m ip with ⟨pre, d, post, hfl, _, _, heq⟩ | ⟨_, heq⟩
  · rw [heq] at hl
    cases pre with
    | nil =>
      simp only [List.nil_append, List.tail_cons] at hl
      rw [hfl]
      rcases List.mem_cons.mp hl with rfl | hl2
      · exact Or.inr (Or.inl rfl)
      rcases List.mem_append.mp hl2 with hl3 | hl3
      · by_cases hb : (ip && !(fl.any (fun l => strStartsWith l uiKey))) = true
        · rw [if_pos hb] at hl3
          rcases List.mem_cons.mp hl3 with rfl | h4
          · exact Or.inr (Or.inr rfl)
          · simp at h4
        · rw [if_neg hb] at hl3
          simp at hl3
      · exact Or.inl (by simp [hl3])
    | cons p0 pre' =>
      rw [List.cons_append, List.tail_cons] at hl
      rw [hfl, List.cons_append, List.tail_cons]
      rcases List.mem_append.mp hl with hl2 | hl2
      · exact Or.inl (List.mem_append.mpr (Or.inl hl2))
      rcases List.mem_cons.mp hl2 with rfl | hl3
      · exact Or.inl (List.mem_append.mpr (Or.inr (List.mem_cons_self _ _)))
      rcases List.mem_cons.mp hl3 with rfl | hl4
      · exact Or.inr (Or.inl rfl)
      rcases List.mem_append.mp hl4 with hl5 | hl5
      · by_cases hb : (ip && !(fl.any (fun l => strStartsWith l uiKey))) = true
        · rw [if_pos hb] at hl5
          rcases List.mem_cons.mp hl5 with rfl | h6
          · exact Or.inr (Or.inr rfl)
          · simp at h6
        · rw [if_neg hb] at hl5
          simp at hl5
      · exact Or.inl (List.mem_append.mpr (Or.inr (List.mem_cons_of_mem _ hl5)))
  · rw [heq] at hl
    cases fl with
    | nil =>
      simp only [List.nil_append, List.tail_cons] at hl
      by_cases hb : (ip && !(List.any [] (fun l => strStartsWith l uiKey))) = true
      · rw [if_pos hb] at hl
        rcases List.mem_cons.mp hl with rfl | h4
        · exact Or.inr (Or.inr rfl)
        · simp at h4
      · rw [if_neg hb] at hl
        simp at hl
    | cons a r =>
      rw [List.cons_append, List.tail_cons] at hl
      rcases List.mem_append.mp hl with hl2 | hl2
      · exact Or.inl hl2
      rcases List.mem_cons.mp hl2 with rfl | hl3
      · exact Or.inr (Or.inl rfl)
      · by_cases hb : (ip && !(List.any (a :: r) (fun l => strStartsWith l uiKey))) = true
        · rw [if_pos hb] at hl3
          rcases List.mem_cons.mp hl3 with rfl | h4
          · exact Or.inr (Or.inr rfl)
          · simp at h4
        · rw [if_neg hb] at hl3
          simp at hl3

theorem newFmLines_line_facts {c fm bd raw : Str}
    (h : parse_frontmatter c = some (fm, bd, raw)) (p n : Str) (ip : Bool) :
    (∀ l ∈ newFmLines (splitNl fm) (build_metadata_line p n) ip, '\n' ∉ l) ∧
    (∀ l ∈ (newFmLines (splitNl fm) (build_metadata_line p n) ip).tail,
      l ≠ "---".data) := by
  constructor
  · intro l hl
    rcases newFmLines_mem _ _ _ l hl with h1 | rfl | rfl
    · exact splitNl_no_nl fm l h1
    · exact metadata_line_no_nl p n
    · decide
  · intro l hl
    rcases newFmLines_tail_mem _ _ _ l hl with h1 | rfl | rfl
    · exact fun hcon => fm_no_marker_line_tail h (hcon ▸ h1)
    · exact metadata_line_ne_marker p n
    · decide

theorem newFmLines_ne_nil {fm : Str} (m : Str) (ip : Bool) :
    newFmLines (splitNl fm) m ip ≠ [] := by
  cases hfl : splitNl fm with
  | nil => exact absurd hfl (splitNl_ne_nil fm)
  | cons a t =>
    obtain ⟨t2, ht2⟩ := newFmLines_head a t m ip
    rw [ht2]
    simp

theorem joinNl_append_single {ls : List Str} (hls : ls ≠ []) (r : Str) :
    joinNl (ls ++ [r]) = joinNl ls ++ '\n' :: r := by
  cases ls with
  | nil => exact absurd rfl hls
  | cons a t =>
    rw [joinNl_append_cons (a :: t) r [] (by simp)]
    rfl

theorem write_findSub4 {c fm bd raw : Str}
    (h : parse_frontmatter c = some (fm, bd, raw)) (p n : Str) (ip : Bool) :
    findSub ("---\n".data ++
        joinNl (newFmLines (splitNl fm) (build_metadata_line p n) ip) ++
        "\n---\n".data ++ bd) ("\n---\n".data) 4 =
      some (4 + (joinNl (newFmLines (splitNl fm) (build_metadata_line p n) ip)).length) := by
  obtain ⟨hnl, htl⟩ := newFmLines_line_facts h p n ip
  set NL := newFmLines (splitNl fm) (build_metadata_line p n) ip with hNL
  set J := joinNl NL with hJ
  have hNLne : NL ≠ [] := newFmLines_ne_nil _ _
  have hjoin : joinNl (NL ++ ["---\n".data ++ bd]) =
      J ++ '\n' :: ("---\n".data ++ bd) := joinNl_append_single hNLne _
  apply findSub_intro (by omega)
  · have hdrop : ("---\n".data ++ J ++ "\n---\n".data ++ bd).drop (4 + J.length) =
        "\n---\n".data ++ bd := by
      rw [show "---\n".data ++ J ++ "\n---\n".data ++ bd =
        ("---\n".data ++ J) ++ ("\n---\n".data ++ bd) by simp [List.append_assoc]]
      rw [show (4 : Nat) + J.length = ("---\n".data ++ J).length by simp; omega]
      rw [List.drop_left]
    rw [hdrop, List.isPrefixOf_iff_prefix]
    exact List.prefix_append _ _
  · intro i h4i hiJ
    have harith : ("---\n".data : Str).length + (i - 4) = i := by
      simp
      omega
    have hdrop : ("---\n".data ++ J ++ "\n---\n".data ++ bd).drop i =
        (joinNl (NL ++ ["---\n".data ++ bd])).drop (i - 4) := by
      rw [show "---\n".data ++ J ++ "\n---\n".data ++ bd =
        "---\n".data ++ (J ++ '\n' :: ("---\n".data ++ bd)) by simp [List.append_assoc]]
      conv_lhs => rw [← harith]
      rw [List.drop_append, hjoin]
    rw [hdrop]
    exact no_marker_in_join NL hnl htl _ (i - 4) (by rw [← hJ]; omega)

theorem write_parse {c fm bd raw : Str}
    (h : parse_frontmatter c = some (fm, bd, raw)) (p n : Str) (ip : Bool) :
    parse_frontmatter ("---\n".data ++
        joinNl (newFmLines (splitNl fm) (build_metadata_line p n) ip) ++
        "\n---\n".data ++ bd) =
      some (joinNl (newFmLines (splitNl fm) (build_metadata_line p n) ip), bd,
        "---\n".data ++ joinNl (newFmLines (splitNl fm) (build_metadata_line p n) ip) ++
          "\n---\n".data) := by
  set NL := newFmLines (splitNl fm) (build_metadata_line p n) ip with hNL
  set J := joinNl NL with hJ
  have hsw : strStartsWith ("---\n".data ++ J ++ "\n---\n".data ++ bd) ("---\n".data) = true := by
    rw [strStartsWith, List.isPrefixOf_iff_prefix]
    exact ((List.prefix_append _ _).trans (List.prefix_append _ _)).trans
      (List.prefix_append _ _)
  rw [parse_frontmatter, if_pos hsw, write_findSub4 h p n ip]
  rw [Option.some.injEq, Prod.mk.injEq, Prod.mk.injEq]
  refine ⟨?_, ?_, ?_⟩
  · have hdrop4 : ("---\n".data ++ J ++ "\n---\n".data ++ bd).drop 4 =
        J ++ "\n---\n".data ++ bd := by
      rw [show "---\n".data ++ J ++ "\n---\n".data ++ bd =
        "---\n".data ++ (J ++ "\n---\n".data ++ bd) by simp [List.append_assoc]]
      rw [show (4 : Nat) = ("---\n".data : Str).length from rfl, List.drop_left]
    rw [hdrop4, show 4 + J.length - 4 = J.length by omega]
    rw [show J ++ "\n---\n".data ++ bd = J ++ ("\n---\n".data ++ bd) by simp [List.append_assoc]]
    rw [List.take_left]
  · rw [show "---\n".data ++ J ++ "\n---\n".data ++ bd =
      ("---\n".data ++ J ++ "\n---\n".data) ++ bd by simp [List.append_assoc]]
    rw [show 4 + J.length + 5 = ("---\n".data ++ J ++ "\n---\n".data).length by simp; omega]
    rw [List.drop_left]
  · rw [show "---\n".data ++ J ++ "\n---\n".data ++ bd =
      ("---\n".data ++ J ++ "\n---\n".data) ++ bd by simp [List.append_assoc]]
    rw [show 4 + J.length + 5 = ("---\n".data ++ J ++ "\n---\n".data).length by simp; omega]
    rw [List.take_left]

theorem skipCheck_eq_of_findSub {s : Str} {i : Nat}
    (hfs : findSub s ("\n---\n".data) 0 = some i) :
    skipCheck s = containsSub ("\nmetadata:".data) (s.take i) := by
  rw [skipCheck, hfs]

theorem write_skip {c fm bd raw : Str}
    (h : parse_frontmatter c = some (fm, bd, raw))
    (hhead : strStartsWith c ("---\n---\n".data) = false) (p n : Str) (ip : Bool) :
    skipCheck ("---\n".data ++
      joinNl (newFmLines (splitNl fm) (build_metadata_line p n) ip) ++
      "\n---\n".data ++ bd) = true := by
  obtain ⟨hnl, htl⟩ := newFmLines_line_facts h p n ip
  have hw := write_findSub4 h p n ip
  obtain ⟨_, hp5, hmin4⟩ := findSub_eq_some hw
  have hsplitA := newFmLines_split (splitNl fm) (build_metadata_line p n) ip
    (splitNl_ne_nil fm)
  cases hfl : splitNl fm with
  | nil => exact absurd hfl (splitNl_ne_nil fm)
  | cons a t =>
    obtain ⟨t2, ht2⟩ := newFmLines_head a t (build_metadata_line p n) ip
    have hane : a ≠ "---".data := fun hcon =>
      fm_head_ne_marker h hhead t (by rw [hfl, hcon])
    have hanl : '\n' ∉ a := splitNl_no_nl fm a (by rw [hfl]; exact List.mem_cons_self _ _)
    rw [hfl] at hsplitA hw hp5 hmin4 hnl htl
    set NL := newFmLines (a :: t) (build_metadata_line p n) ip with hNL
    set J := joinNl NL with hJ
    have hfs0 : findSub ("---\n".data ++ J ++ "\n---\n".data ++ bd)
        ("\n---\n".data) 0 = some (4 + J.length) := by
      apply findSub_intro (Nat.zero_le _)
      · exact hp5
      · intro i _ hi
        by_cases h4 : 4 ≤ i
        · exact hmin4 i h4 hi
        · have hc1 : "---\n".data ++ J ++ "\n---\n".data ++ bd =
              '-' :: '-' :: '-' :: '\n' :: (J ++ "\n---\n".data ++ bd) := rfl
          have hi3 : i = 0 ∨ i = 1 ∨ i = 2 ∨ i = 3 := by omega
          rw [hc1, show ("\n---\n".data : Str) = '\n' :: "---\n".data from rfl]
          rcases hi3 with rfl | rfl | rfl | rfl
          · show ('\n' :: "---\n".data).isPrefixOf
              ('-' :: ('-' :: '-' :: '\n' :: (J ++ "\n---\n".data ++ bd))) = false
            exact head_ne_not_isPrefixOf (by decide)
          · show ('\n' :: "---\n".data).isPrefixOf
              ('-' :: ('-' :: '\n' :: (J ++ "\n---\n".data ++ bd))) = false
            exact head_ne_not_isPrefixOf (by decide)
          · show ('\n' :: "---\n".data).isPrefixOf
              ('-' :: ('\n' :: (J ++ "\n---\n".data ++ bd))) = false
            exact head_ne_not_isPrefixOf (by decide)
          · show ('\n' :: "---\n".data).isPrefixOf
              ('\n' :: (J ++ "\n---\n".data ++ bd)) = false
            rw [cons_isPrefixOf_cons_same]
            have hY : J ++ "\n---\n".data ++ bd =
                a ++ '\n' :: joinNl (t2 ++ ["---\n".data ++ bd]) := by
              have h1 : J ++ "\n---\n".data ++ bd =
                  joinNl (NL ++ ["---\n".data ++ bd]) := by
                rw [joinNl_append_single (by rw [ht2]; simp) ("---\n".data ++ bd), ← hJ]
                simp [List.append_assoc]
              rw [h1, ht2]
              cases t2 with
              | nil => rfl
              | cons x xs => rfl
            rw [hY]
            exact marker_not_prefix_of_line hanl hane _
    rw [skipCheck_eq_of_findSub hfs0]
    have htake : ("---\n".data ++ J ++ "\n---\n".data ++ bd).take (4 + J.length) =
        "---\n".data ++ J := by
      rw [show "---\n".data ++ J ++ "\n---\n".data ++ bd =
        ("---\n".data ++ J) ++ ("\n---\n".data ++ bd) by simp [List.append_assoc]]
      rw [show 4 + J.length = ("---\n".data ++ J).length by simp; omega]
      rw [List.take_left]
    rw [htake]
    obtain ⟨A, B, hAB, hAne⟩ := hsplitA
    have hJ2 : "---\n".data ++ J = ("---\n".data ++ joinNl A) ++
        '\n' :: joinNl (build_metadata_line p n :: B) := by
      rw [hJ, hAB, joinNl_append_cons A _ B hAne]
      simp [List.append_assoc]
    apply containsSub_intro (s := "---\n".data ++ J) (by decide)
      (i := ("---\n".data ++ joinNl A).length)
    rw [hJ2, List.drop_left,
      show ("\nmetadata:".data : Str) = '\n' :: "metadata:".data from rfl,
      cons_isPrefixOf_cons_same, List.isPrefixOf_iff_prefix]
    cases B with
    | nil => exact metadata_key_front p n
    | cons b bs =>
      show ("metadata:".data : Str) <+:
        build_metadata_line p n ++ '\n' :: joinNl (b :: bs)
      exact (metadata_key_front p n).trans (List.prefix_append _ _)

theorem second_run_fix {p n c : Str}
    (hhead : strStartsWith c ("---\n---\n".data) = false) :
    process_skill p n false ((process_skill p n false c).newContent) =
      ⟨false, (process_skill p n false c).newContent⟩ := by
  by_cases hs : skipCheck c = true
  · rw [process_skill_of_skip hs, process_skill_of_skip hs]
  · have hs' : skipCheck c = false := eq_false_of_ne_true hs
    cases hp : parse_frontmatter c with
    | none =>
      rw [process_skill_of_err hs' hp, process_skill_of_err hs' hp]
    | some trip =>
      obtain ⟨fm, bd, raw⟩ := trip
      have heq := @process_skill_of_parse p n false c fm bd raw hs' hp
      rw [if_neg (by simp)] at heq
      rw [heq]
      exact process_skill_of_skip (write_skip hp hhead p n _)

theorem process_skill_dry (p n c : Str) :
    (process_skill p n true c).newContent = c ∧
    (process_skill p n true c).modified = (process_skill p n false c).modified := by
  by_cases hs : skipCheck c = true
  · rw [process_skill_of_skip hs, process_skill_of_skip hs]
    exact ⟨rfl, rfl⟩
  · have hs' : skipCheck c = false := eq_false_of_ne_true hs
    cases hp : parse_frontmatter c with
    | none =>
      rw [process_skill_of_err hs' hp, process_skill_of_err hs' hp]
      exact ⟨rfl, rfl⟩
    | some trip =>
      obtain ⟨fm, bd, raw⟩ := trip
      have h1 := @process_skill_of_parse p n true c fm bd raw hs' hp
      have h2 := @process_skill_of_parse p n false c fm bd raw hs' hp
      rw [if_pos rfl] at h1
      rw [if_neg (by simp)] at h2
      rw [h1, h2]
      exact ⟨rfl, rfl⟩

theorem runBatch_eq (dr : Bool) : ∀ files : List BatchFile,
    runBatch dr files = (files.length,
      (files.map (fun f => if (process_skill f.1 f.2.1 dr f.2.2).modified then 1 else 0)).sum,
      files.map (fun f => (process_skill f.1 f.2.1 dr f.2.2).newContent)) := by
  intro files
  induction files with
  | nil => rfl
  | cons f rest ih =>
    rw [runBatch, ih]
    simp [List.sum_cons]

/-! ### Counting `user-invocable:` lines -/

theorem countUI_split (fm bd : Str) :
    countUI ("---\n".data ++ fm ++ "\n---\n".data ++ bd) =
      (splitNl fm).countP (fun l => strStartsWith l uiKey) +
      (splitNl bd).countP (fun l => strStartsWith l uiKey) := by
  rw [countUI]
  have hshape : "---\n".data ++ fm ++ "\n---\n".data ++ bd =
      "---".data ++ '\n' :: (fm ++ '\n' :: ("---".data ++ '\n' :: bd)) := by
    rw [List.append_assoc, List.append_assoc]
    rfl
  rw [hshape, splitNl_append, splitNl_append, splitNl_append]
  rw [List.countP_append, List.countP_append, List.countP_append]
  have h0 : (splitNl ("---".data)).countP (fun l => strStartsWith l uiKey) = 0 := by decide
  rw [h0]
  omega

theorem countP_newFmLines (fl : List Str) (p n : Str) (ip : Bool) :
    (newFmLines fl (build_metadata_line p n) ip).countP
        (fun l => strStartsWith l uiKey) =
      fl.countP (fun l => strStartsWith l uiKey) +
      (if ip && !(fl.any (fun l => strStartsWith l uiKey)) then 1 else 0) := by
  have hui : (fun l => strStartsWith l uiKey) uiLine = true := by decide
  rcases newFmLines_cases fl (build_metadata_line p n) ip
    with ⟨pre, d, post, hfl, _, _, heq⟩ | ⟨_, heq⟩
  · rw [heq]
    by_cases hb : (ip && !(fl.any (fun l => strStartsWith l uiKey))) = true
    · rw [if_pos hb, if_pos hb, hfl]
      simp [List.countP_append, List.countP_cons, metadata_line_not_ui p n, hui]
      omega
    · rw [if_neg hb, if_neg hb, hfl]
      simp [List.countP_append, List.countP_cons, metadata_line_not_ui p n]
  · rw [heq]
    by_cases hb : (ip && !(fl.any (fun l => strStartsWith l uiKey))) = true
    · rw [if_pos hb, if_pos hb]
      simp [List.countP_append, List.countP_cons, metadata_line_not_ui p n, hui]
    · rw [if_neg hb, if_neg hb]
      simp [List.countP_append, List.countP_cons, metadata_line_not_ui p n]

theorem countUI_write {c fm bd raw : Str}
    (h : parse_frontmatter c = some (fm, bd, raw)) (p n : Str) (ip : Bool) :
    countUI ("---\n".data ++
        joinNl (newFmLines (splitNl fm) (build_metadata_line p n) ip) ++
        "\n---\n".data ++ bd) =
      (splitNl fm).countP (fun l => strStartsWith l uiKey) +
      (if ip && !((splitNl fm).any (fun l => strStartsWith l uiKey)) then 1 else 0) +
      (splitNl bd).countP (fun l => strStartsWith l uiKey) := by
  obtain ⟨hnl, _⟩ := newFmLines_line_facts h p n ip
  have hJ : splitNl (joinNl (newFmLines (splitNl fm) (build_metadata_line p n) ip)) =
      newFmLines (splitNl fm) (build_metadata_line p n) ip :=
    splitNl_joinNl _ (newFmLines_ne_nil _ _) hnl
  rw [countUI_split, hJ, countP_newFmLines]

theorem countUI_unchanged_of_not_persona (p n : Str) (dr : Bool) (c : Str)
    (hp : strStartsWith p ("personas/".data) = false) :
    countUI (process_skill p n dr c).newContent = countUI c := by
  by_cases hs : skipCheck c = true
  · rw [process_skill_of_skip hs]
  · have hs' : skipCheck c = false := eq_false_of_ne_true hs
    cases hpar : parse_frontmatter c with
    | none => rw [process_skill_of_err hs' hpar]
    | some trip =>
      obtain ⟨fm, bd, raw⟩ := trip
      have heq := @process_skill_of_parse p n dr c fm bd raw hs' hpar
      cases dr with
      | true =>
        rw [if_pos rfl] at heq
        rw [heq]
      | false =>
        rw [if_neg (by simp)] at heq
        rw [heq]
        obtain ⟨hsplit, _, _, _⟩ := parse_frontmatter_eq_some hpar
        conv_rhs => rw [hsplit]
        rw [countUI_write hpar p n _, countUI_split, hp]
        simp

theorem countUI_iter_not_persona (p n : Str) (dr : Bool)
    (hp : strStartsWith p ("personas/".data) = false) :
    ∀ (k : Nat) (c : Str), countUI (iterProcess p n dr k c) = countUI c := by
  intro k
  induction k with
  | zero => intro c; rfl
  | succ k2 ih =>
    intro c
    rw [iterProcess, ih, countUI_unchanged_of_not_persona p n dr c hp]

/-! ### The longest-prefix lookup -/

theorem find_longest_match (path : Str) :
    ∀ (l : List (Str × Str)), l.Pairwise (fun x y => y.1.length ≤ x.1.length) →
      (l.map Prod.fst).Nodup →
      ∀ (pq : Str) (e : Str), (pq, e) ∈ l → strStartsWith path pq = true →
      (∀ q ∈ l, strStartsWith path q.1 = true → q.1.length ≤ pq.length) →
      l.find? (fun pe => strStartsWith path pe.1) = some (pq, e) := by
  intro l
  induction l with
  | nil =>
    intro _ _ pq e hmem
    simp at hmem
  | cons a rest ih =>
    intro hpw hnd pq e hmem hmatch hmax
    by_cases ha : strStartsWith path a.1 = true
    · rw [List.find?_cons_of_pos (p := fun pe => strStartsWith path pe.1) rest ha]
      rcases List.mem_cons.mp hmem with rfl | hmem2
      · rfl
      · exfalso
        have h1 : pq.length ≤ a.1.length := by
          have := (List.pairwise_cons.mp hpw).1 (pq, e) hmem2
          simpa using this
        have h2 : a.1.length ≤ pq.length := hmax a (List.mem_cons_self _ _) ha
        have hlen : a.1.length = pq.length := Nat.le_antisymm h2 h1
        have hkey : a.1 = pq := by
          have hpa := List.prefix_iff_eq_take.mp ((List.isPrefixOf_iff_prefix).mp ha)
          have hpp := List.prefix_iff_eq_take.mp ((List.isPrefixOf_iff_prefix).mp hmatch)
          rw [hpa, hpp, hlen]
        rw [List.map_cons] at hnd
        have hnd2 := (List.nodup_cons.mp hnd).1
        apply hnd2
        rw [hkey]
        exact List.mem_map_of_mem Prod.fst hmem2
    · rw [List.find?_cons_of_neg (p := fun pe => strStartsWith path pe.1) rest ha]
      rcases List.mem_cons.mp hmem with rfl | hmem2
      · exact absurd hmatch ha
      · exact ih (List.pairwise_cons.mp hpw).2 (by
            rw [List.map_cons] at hnd
            exact (List.nodup_cons.mp hnd).2)
          pq e hmem2 hmatch
          (fun q hq hmq => hmax q (List.mem_cons_of_mem _ hq) hmq)

theorem sortLenDesc_emoji_sorted :
    (sortLenDesc EMOJI_MAP).Pairwise (fun x y => y.1.length ≤ x.1.length) := by
  have : (sortLenDesc EMOJI_MAP).Pairwise
      (fun x y => decide (y.1.length ≤ x.1.length) = true) := by decide
  exact this.imp (fun h => of_decide_eq_true h)

theorem sortLenDesc_emoji_nodup_keys :
    ((sortLenDesc EMOJI_MAP).map Prod.fst).Nodup := by
  decide

theorem uiLine_mem_newFmLines (fl : List Str) (m : Str)
    (hb : (fl.any (fun l => strStartsWith l uiKey)) = false) :
    uiLine ∈ newFmLines fl m true := by
  rcases newFmLines_cases fl m true with ⟨pre, d, post, _, _, _, heq⟩ | ⟨_, heq⟩ <;>
    rw [heq, if_pos (by simp [hb])] <;> simp

theorem countUI_second_run {p n c fm bd raw : Str}
    (h : parse_frontmatter c = some (fm, bd, raw))
    (hex : ∃ l ∈ newFmLines (splitNl fm) (build_metadata_line p n)
        (strStartsWith p ("personas/".data)), strStartsWith l uiKey = true) :
    countUI (process_skill p n false ("---\n".data ++
      joinNl (newFmLines (splitNl fm) (build_metadata_line p n)
        (strStartsWith p ("personas/".data))) ++ "\n---\n".data ++ bd)).newContent =
    countUI ("---\n".data ++
      joinNl (newFmLines (splitNl fm) (build_metadata_line p n)
        (strStartsWith p ("personas/".data))) ++ "\n---\n".data ++ bd) := by
  by_cases hs : skipCheck ("---\n".data ++ joinNl (newFmLines (splitNl fm)
      (build_metadata_line p n) (strStartsWith p ("personas/".data))) ++
      "\n---\n".data ++ bd) = true
  · rw [process_skill_of_skip hs]
  · have hs' := eq_false_of_ne_true hs
    have hpar2 := write_parse h p n (strStartsWith p ("personas/".data))
    have heq := @process_skill_of_parse p n false _ _ _ _ hs' hpar2
    rw [if_neg (by simp)] at heq
    rw [heq]
    obtain ⟨hnl, _⟩ := newFmLines_line_facts h p n (strStartsWith p ("personas/".data))
    have hJ : splitNl (joinNl (newFmLines (splitNl fm) (build_metadata_line p n)
        (strStartsWith p ("personas/".data)))) =
        newFmLines (splitNl fm) (build_metadata_line p n)
          (strStartsWith p ("personas/".data)) :=
      splitNl_joinNl _ (newFmLines_ne_nil _ _) hnl
    rw [countUI_write hpar2 p n (strStartsWith p ("personas/".data)), hJ]
    have hanyNL : (newFmLines (splitNl fm) (build_metadata_line p n)
        (strStartsWith p ("personas/".data))).any
        (fun l => strStartsWith l uiKey) = true := by
      obtain ⟨l, hl, hlp⟩ := hex
      exact List.any_eq_true.mpr ⟨l, hl, hlp⟩
    rw [hanyNL, countUI_split, hJ]
    simp

/-! ### Claim theorems -/

/-- C3: parser round-trip identity.  Whenever `parse_frontmatter` succeeds,
the start-marker line, the returned metadata block, the end-marker line and
the returned body concatenate back to the original text exactly, and the
returned raw leading slice is the original text up to and including the
terminating marker line (so `raw ++ body` is again the original text). -/
theorem claim3_parser_round_trip (c fm bd raw : Str)
    (h : parse_frontmatter c = some (fm, bd, raw)) :
    "---\n".data ++ fm ++ "\n---\n".data ++ bd = c ∧
    raw = "---\n".data ++ fm ++ "\n---\n".data ∧
    raw ++ bd = c := by
  obtain ⟨hsplit, hraw, _, _⟩ := parse_frontmatter_eq_some h
  refine ⟨hsplit.symm, hraw, ?_⟩
  rw [hraw, hsplit]

/-- C3 witness: the round trip at a concrete parsed document. -/
theorem claim3_parser_round_trip_witness :
    parse_frontmatter ("---\nk\n---\nB".data) =
      some ("k".data, "B".data, "---\nk\n---\n".data) ∧
    ("---\n".data ++ "k".data ++ "\n---\n".data ++ "B".data = "---\nk\n---\nB".data ∧
      ("---\nk\n---\n".data : Str) = "---\n".data ++ "k".data ++ "\n---\n".data ∧
      "---\nk\n---\n".data ++ "B".data = "---\nk\n---\nB".data) :=
  ⟨by decide, claim3_parser_round_trip _ _ _ _ (by decide)⟩

/-- C4: decorative-value resolution.  (1) A leaf name in the override table
wins outright; (2) otherwise, among the `EMOJI_MAP` entries whose key is a
literal string prefix of the path, the longest one's value is returned;
(3) with no override and no matching prefix the constant fallback `📦` is
returned. -/
theorem claim4_emoji_resolution (path name : Str) :
    (∀ e, assocLookup name API_EMOJI_OVERRIDES = some e → get_emoji path name = e) ∧
    (assocLookup name API_EMOJI_OVERRIDES = none →
      ∀ (pq e : Str), (pq, e) ∈ EMOJI_MAP → strStartsWith path pq = true →
        (∀ q ∈ EMOJI_MAP, strStartsWith path q.1 = true → q.1.length ≤ pq.length) →
        get_emoji path name = e) ∧
    (assocLookup name API_EMOJI_OVERRIDES = none →
      (∀ q ∈ EMOJI_MAP, strStartsWith path q.1 = false) →
      get_emoji path name = FALLBACK_EMOJI) := by
  refine ⟨?_, ?_, ?_⟩
  · intro e he
    rw [get_emoji, he]
  · intro hnone pq e hmem hmatch hmax
    have hfind : (sortLenDesc EMOJI_MAP).find? (fun pe => strStartsWith path pe.1) =
        some (pq, e) :=
      find_longest_match path _ sortLenDesc_emoji_sorted sortLenDesc_emoji_nodup_keys
        pq e (mem_sortLenDesc.mpr hmem) hmatch
        (fun q hq hmq => hmax q (mem_sortLenDesc.mp hq) hmq)
    rw [get_emoji, hnone, hfind]
  · intro hnone hno
    have hfind : (sortLenDesc EMOJI_MAP).find? (fun pe => strStartsWith path pe.1) =
        none := by
      rw [List.find?_eq_none]
      intro x hx
      rw [hno x (mem_sortLenDesc.mp hx)]
      simp
    rw [get_emoji, hnone, hfind]

/-- C4 witness: the three branches at concrete inputs — an override name that
also sits under a matching path prefix, a longest-prefix lookup, and the
fallback. -/
theorem claim4_emoji_resolution_witness :
    get_emoji ("personas/api/api-tester".data) ("api-tester".data) = "🧪".data ∧
    get_emoji ("personas/domain/eve-esi".data) ("eve-esi".data) = "🚀".data ∧
    get_emoji ("tools".data) ("tools".data) = FALLBACK_EMOJI :=
  ⟨(claim4_emoji_resolution ("personas/api/api-tester".data) ("api-tester".data)).1
      ("🧪".data) (by decide),
   (claim4_emoji_resolution ("personas/domain/eve-esi".data) ("eve-esi".data)).2.1
      (by decide) ("personas/domain/eve-esi".data) ("🚀".data) (by decide) (by decide)
      (by decide),
   (claim4_emoji_resolution ("tools".data) ("tools".data)).2.2 (by decide) (by decide)⟩

/-- C5: mutator splice placement.  Every original frontmatter line is kept in
order (the input is a sublist of the output); the metadata line goes directly
after the first line starting with `description:`, followed by the
`user-invocable: true` line exactly when the persona flag is set and no
original line already starts with `user-invocable:`; and when no line matches
the anchor, the same candidate additions are appended at the end of the block
under the same presence rules. -/
theorem claim5_mutator_splice (fl : List Str) (m : Str) (ip : Bool) :
    fl.Sublist (newFmLines fl m ip) ∧
    (∀ pre d post, fl = pre ++ d :: post → strStartsWith d descKey = true →
      (∀ l ∈ pre, strStartsWith l descKey = false) →
      newFmLines fl m ip = pre ++ d :: m ::
        ((if ip && !(fl.any (fun l => strStartsWith l uiKey)) then [uiLine] else []) ++
          post)) ∧
    ((∀ l ∈ fl, strStartsWith l descKey = false) →
      newFmLines fl m ip = fl ++ m ::
        (if ip && !(fl.any (fun l => strStartsWith l uiKey)) then [uiLine] else [])) := by
  refine ⟨?_, ?_, ?_⟩
  · rcases newFmLines_cases fl m ip with ⟨pre, d, post, hfl, _, _, heq⟩ | ⟨_, heq⟩
    · rw [heq]
      conv_lhs => rw [hfl]
      refine List.Sublist.append_left ?_ pre
      refine List.Sublist.cons₂ d ?_
      exact List.sublist_append_right
        (m :: (if ip && !(fl.any (fun l => strStartsWith l uiKey)) then [uiLine] else []))
        post
    · rw [heq]
      exact List.sublist_append_left fl _
  · intro pre d post hfl hd hpre
    have key : ∀ hi, injectLoop m ip hi fl false false =
        pre ++ d :: m :: ((if ip && !hi then [uiLine] else []) ++ post) := by
      intro hi
      rw [hfl]
      simpa using injectLoop_anchor m ip hi pre d post false hpre hd
    rw [newFmLines, key]
  · intro hno
    rw [newFmLines, injectLoop_no_anchor _ _ _ _ _ hno]

/-- C5 witness: the splice at concrete line lists, with and without an
anchor line. -/
theorem claim5_mutator_splice_witness :
    (["description: d".data] : List Str).Sublist
      (newFmLines ["description: d".data] ("M".data) true) ∧
    newFmLines ["description: d".data] ("M".data) true =
      [] ++ "description: d".data :: "M".data ::
        ((if true && !((["description: d".data] : List Str).any
            (fun l => strStartsWith l uiKey)) then [uiLine] else []) ++ []) ∧
    newFmLines ["x: 1".data] ("M".data) false =
      ["x: 1".data] ++ "M".data ::
        (if false && !((["x: 1".data] : List Str).any
          (fun l => strStartsWith l uiKey)) then [uiLine] else []) :=
  ⟨(claim5_mutator_splice ["description: d".data] ("M".data) true).1,
   (claim5_mutator_splice ["description: d".data] ("M".data) true).2.1
      [] ("description: d".data) [] rfl (by decide) (by decide),
   (claim5_mutator_splice ["x: 1".data] ("M".data) false).2.2 (by decide)⟩

/-- C6 counterexample: the claim's raises-iff fails as stated.  For the
document `"---\n---\nbody"` the text begins with the start-marker line and a
terminating marker line (a line that is exactly `---`) is present after the
start, so the spec-worded failure condition (`specParseFails`) is false — yet
`parse_frontmatter` raises. -/
theorem claim6_counterexample :
    parse_frontmatter ("---\n---\nbody".data) = none ∧
    specParseFails ("---\n---\nbody".data) = false := by
  decide

/-- C6 (amended): `parse_frontmatter` raises a `FormatError` exactly when the
input does not begin with the start-marker line `"---\n"`, or when the
five-character string `"\n---\n"` does not occur anywhere at index ≥ 4 (the
search `content.index("\n---\n", 4)` fails); for every other input it
succeeds. -/
theorem claim6_raises_iff_amended (c : Str) :
    parse_frontmatter c = none ↔
      (strStartsWith c ("---\n".data) = false ∨
        findSub c ("\n---\n".data) 4 = none) := by
  rw [parse_frontmatter]
  by_cases hsw : strStartsWith c ("---\n".data) = true
  · rw [if_pos hsw]
    cases hfs : findSub c ("\n---\n".data) 4 with
    | none => simp [hsw]
    | some e => simp [hsw]
  · rw [if_neg hsw]
    simp [eq_false_of_ne_true hsw]

/-- C7: per-file error isolation and batch accounting.  A document whose
frontmatter fails to parse leaves `process_skill` returning `False` with the
file content unchanged; the batch loop still counts every file in the total,
adds only per-file `modified` flags into the modified count, processes every
file independently of the others' outcomes, and `main` returns exit
status 0. -/
theorem claim7_error_isolation (p n : Str) (dr : Bool) (c : Str)
    (hp : parse_frontmatter c = none) :
    process_skill p n dr c = ⟨false, c⟩ ∧
    ∀ files : List BatchFile,
      (runBatch dr files).1 = files.length ∧
      (runBatch dr files).2.1 = (files.map (fun f =>
        if (process_skill f.1 f.2.1 dr f.2.2).modified then 1 else 0)).sum ∧
      (runBatch dr files).2.2 =
        files.map (fun f => (process_skill f.1 f.2.1 dr f.2.2).newContent) ∧
      (mainRun dr files).2 = 0 := by
  constructor
  · by_cases hs : skipCheck c = true
    · exact process_skill_of_skip hs
    · exact process_skill_of_err (eq_false_of_ne_true hs) hp
  · intro files
    rw [runBatch_eq]
    exact ⟨rfl, rfl, rfl, rfl⟩

/-- C7 witness: a document missing the closing marker, alone in a batch. -/
theorem claim7_error_isolation_witness :
    parse_frontmatter ("---\nno close".data) = none ∧
    process_skill ("agents/a".data) ("a".data) false ("---\nno close".data) =
      ⟨false, "---\nno close".data⟩ ∧
    (runBatch false [(("agents/a".data : Str), ("a".data : Str),
        ("---\nno close".data : Str))]).1 =
      ([(("agents/a".data : Str), ("a".data : Str),
        ("---\nno close".data : Str))] : List BatchFile).length ∧
    (mainRun false [(("agents/a".data : Str), ("a".data : Str),
        ("---\nno close".data : Str))]).2 = 0 :=
  ⟨by decide,
   (claim7_error_isolation ("agents/a".data) ("a".data) false ("---\nno close".data)
      (by decide)).1,
   ((claim7_error_isolation ("agents/a".data) ("a".data) false ("---\nno close".data)
      (by decide)).2 _).1,
   ((claim7_error_isolation ("agents/a".data) ("a".data) false ("---\nno close".data)
      (by decide)).2 _).2.2.2⟩

/-- C9: dry-run frame property.  With the dry-run flag set, `process_skill`
never changes any file content, while returning the same boolean as a
write-mode run would, so batch totals and modified counts match a write-mode
run. -/
theorem claim9_dry_run_frame (p n c : Str) :
    (process_skill p n true c).newContent = c ∧
    (process_skill p n true c).modified = (process_skill p n false c).modified ∧
    ∀ files : List BatchFile,
      (runBatch true files).1 = (runBatch false files).1 ∧
      (runBatch true files).2.1 = (runBatch false files).2.1 := by
  obtain ⟨h1, h2⟩ := process_skill_dry p n c
  refine ⟨h1, h2, ?_⟩
  intro files
  rw [runBatch_eq, runBatch_eq]
  refine ⟨rfl, ?_⟩
  have : (files.map (fun f =>
      if (process_skill f.1 f.2.1 true f.2.2).modified then 1 else 0)) =
      (files.map (fun f =>
      if (process_skill f.1 f.2.1 false f.2.2).modified then 1 else 0)) := by
    apply List.map_congr_left
    intro f _
    rw [(process_skill_dry f.1 f.2.1 f.2.2).2]
  rw [this]

/-- C10: implicit parser edge cases.  Because the terminating marker is
located by searching for the five-character string `"\n---\n"` from offset 4,
the parser raises for a document with an empty metadata block and for a
document whose closing `---` is the final line with no trailing newline, even
though in both cases a line that is exactly `---` is present after the start
line. -/
theorem claim10_parser_edge_cases :
    parse_frontmatter ("---\n---\nbody".data) = none ∧
    parse_frontmatter ("---\nkey: v\n---".data) = none ∧
    ((splitNl ("---\n---\nbody".data)).drop 1).any (fun l => l == "---".data) = true ∧
    ((splitNl ("---\nkey: v\n---".data)).drop 1).any (fun l => l == "---".data) = true := by
  decide

/-- C1 counterexample: idempotence fails as stated.  For the document
`"---\n---\nrest\n---\nbody"` (whose metadata block begins with a bare `---`
line), a second write-mode run of `process_skill` on the output of the first
reports the file as modified again (returns `True`, not `False`) and changes
the bytes once more: the skip guard splits the rewritten content at the
spurious early `"\n---\n"` occurrence, misses the injected `metadata:` line,
and the mutator appends a second copy. -/
theorem claim1_counterexample :
    (process_skill ("agents/x".data) ("x".data) false
      ((process_skill ("agents/x".data) ("x".data) false
        ("---\n---\nrest\n---\nbody".data)).newContent)).modified = true ∧
    (process_skill ("agents/x".data) ("x".data) false
      ((process_skill ("agents/x".data) ("x".data) false
        ("---\n---\nrest\n---\nbody".data)).newContent)).newContent ≠
      (process_skill ("agents/x".data) ("x".data) false
        ("---\n---\nrest\n---\nbody".data)).newContent := by
  decide

/-- C1 (amended): idempotence of the per-file orchestrator for every document
that does not begin with `"---\n---\n"` (equivalently, whose metadata block
does not begin with a bare `---` line): running `process_skill` a second time
in write mode on the output of a first run reports the file as unmodified
(returns `False`) and leaves the content byte-identical, because the caller
short-circuits on the leading block's `metadata:` line before invoking the
mutator. -/
theorem claim1_idempotence_amended (p n c : Str)
    (hhead : strStartsWith c ("---\n---\n".data) = false) :
    (process_skill p n false ((process_skill p n false c).newContent)).modified = false ∧
    (process_skill p n false ((process_skill p n false c).newContent)).newContent =
      (process_skill p n false c).newContent := by
  have h := @second_run_fix p n c hhead
  rw [h]
  exact ⟨rfl, rfl⟩

/-- C1 witness: the amended idempotence at a concrete document. -/
theorem claim1_idempotence_amended_witness :
    strStartsWith ("---\nname: a\ndescription: d\n---\nB".data) ("---\n---\n".data) = false ∧
    (process_skill ("personas/web/a".data) ("a".data) false
      ((process_skill ("personas/web/a".data) ("a".data) false
        ("---\nname: a\ndescription: d\n---\nB".data)).newContent)).modified = false ∧
    (process_skill ("personas/web/a".data) ("a".data) false
      ((process_skill ("personas/web/a".data) ("a".data) false
        ("---\nname: a\ndescription: d\n---\nB".data)).newContent)).newContent =
      (process_skill ("personas/web/a".data) ("a".data) false
        ("---\nname: a\ndescription: d\n---\nB".data)).newContent :=
  ⟨by decide,
   (claim1_idempotence_amended ("personas/web/a".data) ("a".data)
      ("---\nname: a\ndescription: d\n---\nB".data) (by decide)).1,
   (claim1_idempotence_amended ("personas/web/a".data) ("a".data)
      ("---\nname: a\ndescription: d\n---\nB".data) (by decide)).2⟩

/-- C2: scenario postcondition.  For the document
`"---\nname: my-skill\ndescription: does a thing\n---\nBody text.\n"`
processed in write mode under a persona path whose decorative value resolves
to `X`, the output gains, directly after the `description:` line, the line
`metadata: {"openclaw": {"emoji": X, "os": ["darwin", "linux", "win32"]}}`
(JSON with the emoji emitted literally, in this key order and spacing)
followed by the line `user-invocable: true`, with the body unchanged. -/
theorem claim2_scenario_injection (p n X : Str)
    (hip : strStartsWith p ("personas/".data) = true)
    (hX : get_emoji p n = X) :
    process_skill p n false
      ("---\nname: my-skill\ndescription: does a thing\n---\nBody text.\n".data) =
    ⟨true,
      "---\nname: my-skill\ndescription: does a thing\nmetadata: \x7b\"openclaw\": \x7b\"emoji\": \"".data
      ++ X ++
      "\", \"os\": [\"darwin\", \"linux\", \"win32\"]\x7d\x7d\nuser-invocable: true\n---\nBody text.\n".data⟩ := by
  subst hX
  have hs : skipCheck
      ("---\nname: my-skill\ndescription: does a thing\n---\nBody text.\n".data) = false := by
    decide
  have hp : parse_frontmatter
      ("---\nname: my-skill\ndescription: does a thing\n---\nBody text.\n".data) =
      some ("name: my-skill\ndescription: does a thing".data, "Body text.\n".data,
        "---\nname: my-skill\ndescription: does a thing\n---\n".data) := by
    decide
  have heq := @process_skill_of_parse p n false
    ("---\nname: my-skill\ndescription: does a thing\n---\nBody text.\n".data)
    ("name: my-skill\ndescription: does a thing".data) ("Body text.\n".data)
    ("---\nname: my-skill\ndescription: does a thing\n---\n".data) hs hp
  rw [if_neg (by simp)] at heq
  rw [heq, hip]
  have hsp : splitNl ("name: my-skill\ndescription: does a thing".data) =
      ["name: my-skill".data, "description: does a thing".data] := by decide
  rw [hsp]
  have hNL : ∀ m : Str,
      newFmLines ["name: my-skill".data, "description: does a thing".data] m true =
        ["name: my-skill".data, "description: does a thing".data, m, uiLine] := by
    intro m
    rw [newFmLines, show (["name: my-skill".data, "description: does a thing".data]).any
      (fun l => strStartsWith l uiKey) = false from by decide]
    rw [injectLoop, if_neg (by decide), injectLoop, if_pos (by decide), if_pos (by decide)]
    rfl
  rw [hNL]
  have hJ : ∀ m : Str, joinNl ["name: my-skill".data, "description: does a thing".data,
      m, uiLine] = "name: my-skill".data ++ '\n' ::
      ("description: does a thing".data ++ '\n' :: (m ++ '\n' :: uiLine)) :=
    fun m => rfl
  rw [hJ]
  simp only [build_metadata_line, metadataJsonPre, metadataJsonPost, uiLine,
    List.append_assoc, List.cons_append]
  rfl

/-- C2 witness: the scenario at a concrete persona path resolving to `🔧`. -/
theorem claim2_scenario_injection_witness :
    strStartsWith ("personas/engineering/code-reviewer".data) ("personas/".data) = true ∧
    get_emoji ("personas/engineering/code-reviewer".data) ("code-reviewer".data) =
      "🔧".data ∧
    process_skill ("personas/engineering/code-reviewer".data) ("code-reviewer".data) false
      ("---\nname: my-skill\ndescription: does a thing\n---\nBody text.\n".data) =
    ⟨true,
      "---\nname: my-skill\ndescription: does a thing\nmetadata: \x7b\"openclaw\": \x7b\"emoji\": \"".data
      ++ "🔧".data ++
      "\", \"os\": [\"darwin\", \"linux\", \"win32\"]\x7d\x7d\nuser-invocable: true\n---\nBody text.\n".data⟩ :=
  ⟨by decide, by decide,
   claim2_scenario_injection ("personas/engineering/code-reviewer".data)
     ("code-reviewer".data) ("🔧".data) (by decide) (by decide)⟩

/-- C8: flag injection scoping.  (1) A document under a non-persona path
never gains a `user-invocable:` line over any number of runs (dry or write);
(2) a persona document with no `user-invocable:` line anywhere that a first
write-mode run modifies has exactly one such line afterwards, and still
exactly one after a second run; (3) a document whose original frontmatter
block already defines the field gains none (the line count is unchanged). -/
theorem claim8_flag_scoping :
    (∀ (p n : Str) (dr : Bool) (k : Nat) (c : Str),
        strStartsWith p ("personas/".data) = false →
        countUI (iterProcess p n dr k c) = countUI c) ∧
    (∀ (p n c : Str), strStartsWith p ("personas/".data) = true →
        countUI c = 0 → (process_skill p n false c).modified = true →
        countUI (process_skill p n false c).newContent = 1 ∧
        countUI (process_skill p n false
          ((process_skill p n false c).newContent)).newContent = 1) ∧
    (∀ (p n c fm bd raw : Str), parse_frontmatter c = some (fm, bd, raw) →
        (splitNl fm).any (fun l => strStartsWith l uiKey) = true →
        countUI (process_skill p n false c).newContent = countUI c) := by
  refine ⟨?_, ?_, ?_⟩
  · intro p n dr k c hp
    exact countUI_iter_not_persona p n dr hp k c
  · intro p n c hp h0 hmod
    by_cases hs : skipCheck c = true
    · rw [process_skill_of_skip hs] at hmod
      exact absurd hmod (by simp)
    · have hs' := eq_false_of_ne_true hs
      cases hpar : parse_frontmatter c with
      | none =>
        rw [process_skill_of_err hs' hpar] at hmod
        exact absurd hmod (by simp)
      | some trip =>
        obtain ⟨fm, bd, raw⟩ := trip
        have heq := @process_skill_of_parse p n false c fm bd raw hs' hpar
        rw [if_neg (by simp)] at heq
        obtain ⟨hsplit, _, _, _⟩ := parse_frontmatter_eq_some hpar
        have h0' : (splitNl fm).countP (fun l => strStartsWith l uiKey) = 0 ∧
            (splitNl bd).countP (fun l => strStartsWith l uiKey) = 0 := by
          rw [hsplit, countUI_split] at h0
          omega
        have hany : (splitNl fm).any (fun l => strStartsWith l uiKey) = false := by
          rw [List.any_eq_false]
          exact List.countP_eq_zero.mp h0'.1
        constructor
        · rw [heq, countUI_write hpar p n _, hp, hany, h0'.1, h0'.2]
          simp
        · rw [heq]
          have hipmem : uiLine ∈ newFmLines (splitNl fm) (build_metadata_line p n)
              (strStartsWith p ("personas/".data)) := by
            rw [hp]
            exact uiLine_mem_newFmLines _ _ hany
          rw [countUI_second_run hpar ⟨uiLine, hipmem, by decide⟩]
          rw [countUI_write hpar p n _, hp, hany, h0'.1, h0'.2]
          simp
  · intro p n c fm bd raw hpar hany
    by_cases hs : skipCheck c = true
    · rw [process_skill_of_skip hs]
    · have hs' := eq_false_of_ne_true hs
      have heq := @process_skill_of_parse p n false c fm bd raw hs' hpar
      rw [if_neg (by simp)] at heq
      rw [heq]
      obtain ⟨hsplit, _, _, _⟩ := parse_frontmatter_eq_some hpar
      conv_rhs => rw [hsplit]
      rw [countUI_write hpar p n _, countUI_split, hany]
      simp

/-- C8 witness: the three behaviours at concrete documents — a non-persona
document run twice, a persona document run twice, and a persona document
whose block already defines the field. -/
theorem claim8_flag_scoping_witness :
    countUI (iterProcess ("agents/a".data) ("a".data) false 2
      ("---\ndescription: d\n---\nB".data)) =
      countUI ("---\ndescription: d\n---\nB".data) ∧
    (countUI (process_skill ("personas/web/a".data) ("a".data) false
        ("---\ndescription: d\n---\nB".data)).newContent = 1 ∧
      countUI (process_skill ("personas/web/a".data) ("a".data) false
        ((process_skill ("personas/web/a".data) ("a".data) false
          ("---\ndescription: d\n---\nB".data)).newContent)).newContent = 1) ∧
    countUI (process_skill ("personas/web/a".data) ("a".data) false
      ("---\nuser-invocable: false\n---\nB".data)).newContent =
      countUI ("---\nuser-invocable: false\n---\nB".data) :=
  ⟨claim8_flag_scoping.1 ("agents/a".data) ("a".data) false 2
      ("---\ndescription: d\n---\nB".data) (by decide),
   claim8_flag_scoping.2.1 ("personas/web/a".data) ("a".data)
      ("---\ndescription: d\n---\nB".data) (by decide) (by decide) (by decide),
   claim8_flag_scoping.2.2 ("personas/web/a".data) ("a".data)
      ("---\nuser-invocable: false\n---\nB".data) ("user-invocable: false".data)
      ("B".data) ("---\nuser-invocable: false\n---\n".data) (by decide) (by decide)⟩
